import Mathlib

/-!
# char_handle: hex / BCD / endianness conversion helpers

A shallow embedding of `char_handle.c`.

Conventions of the embedding:

* a C `char` and a `uint8_t` are both represented by the value of the byte, a natural
  number below 256.  Every constant a `char` is compared against in the source is below
  128, so the comparisons come out the same whether `char` is signed or unsigned: a byte
  with the top bit set fails every range test either way;
* `uint16_t` / `uint32_t` values are natural numbers, and every place where the C
  arithmetic is carried out in 32 (or 16, or 8) bits reduces explicitly modulo `2 ^ w`;
* a pointer argument is an `Option`: `none` is the null pointer, `some buf` points to a
  buffer whose contents (and allocated size) are the list `buf`;
* a function that accesses memory returns an `Option`: `none` means that the call has no
  defined result (an access outside the allocated buffer, or a loop that never exits).
-/

namespace CharHandle

/-! ## Machine words -/

/-- The number of values of a `uint8_t`. -/
def UINT8_MOD : Nat := 256

/-- The number of values of a `uint16_t`. -/
def UINT16_MOD : Nat := 65536

/-- The number of values of a `uint32_t`. -/
def UINT32_MOD : Nat := 4294967296

/-! ## Library functions used by the source (`<ctype.h>`, `<stdio.h>`) -/

/-- The function `toupper` of the C locale: the letters `a`..`z` are mapped to `A`..`Z`,
every other value is returned unchanged. -/
def toupper (c : Nat) : Nat :=
  if 0x61 ≤ c ∧ c ≤ 0x7A then c - 0x20 else c

/-- The bytes of an ASCII string. -/
def ascii (s : String) : List Nat :=
  s.toList.map Char.toNat

/-- The digits used by the `X` conversion of `printf`. -/
def upperHexDigits : List Nat :=
  ascii "0123456789ABCDEF"

/-- The four bytes `snprintf(p, 4, "%02X ", v)` stores at `p` for a `uint8_t` value `v`:
two upper-case hexadecimal digits, a space and the terminating NUL. -/
def snprintf_02X_space (v : Nat) : List Nat :=
  [upperHexDigits.getD (v / 16 % 16) 0, upperHexDigits.getD (v % 16) 0, 0x20, 0x00]

/-! ## Single character and nibble -/

/-- Source `char_to_num`: `'0'`..`'9'`, `'a'`..`'f'`, `'A'`..`'F'` to 0..15, anything
else to `0xFF`.  The result is stored in a `uint8_t`. -/
def char_to_num (ch : Nat) : Nat :=
  if 0x30 ≤ ch ∧ ch ≤ 0x39 then
    (ch - 0x30) % UINT8_MOD
  else if 0x61 ≤ ch ∧ ch ≤ 0x66 then
    (ch - (0x61 - 10)) % UINT8_MOD
  else if 0x41 ≤ ch ∧ ch ≤ 0x46 then
    (ch - (0x41 - 10)) % UINT8_MOD
  else
    0xFF

/-- Source `num_to_char`: 0..9 to `'0'`..`'9'`, 10..15 to `'A'`..`'F'`, anything else to
`'Z'`. -/
def num_to_char (num : Nat) : Nat :=
  if num ≤ 9 then
    (0x30 + num - 0) % UINT8_MOD
  else if 10 ≤ num ∧ num ≤ 15 then
    (0x41 + num - 10) % UINT8_MOD
  else
    0x5A

/-- A character is a hexadecimal digit: one of `0`..`9`, `a`..`f`, `A`..`F`. -/
def isHexDigit (c : Nat) : Prop :=
  (0x30 ≤ c ∧ c ≤ 0x39) ∨ (0x61 ≤ c ∧ c ≤ 0x66) ∨ (0x41 ≤ c ∧ c ≤ 0x46)

instance (c : Nat) : Decidable (isHexDigit c) := by
  unfold isHexDigit; infer_instance

/-! ## Endianness -/

/-- Source `byte_swap_16`.  The operand is promoted to `int`, the result is converted back
to `uint16_t`. -/
def byte_swap_16 (src_data : Nat) : Nat :=
  (((src_data &&& 0xFF00) >>> 8) |||
   ((src_data &&& 0x00FF) <<< 8)) % UINT16_MOD

/-- Source `byte_swap_32`.  All operations are on `uint32_t`; a left shift drops the bits
shifted out of the word. -/
def byte_swap_32 (src_data : Nat) : Nat :=
  (((src_data &&& 0xFF000000) >>> 24) |||
   ((src_data &&& 0x00FF0000) >>> 8) |||
   (((src_data &&& 0x0000FF00) <<< 8) % UINT32_MOD) |||
   (((src_data &&& 0x000000FF) <<< 24) % UINT32_MOD)) % UINT32_MOD

/-- Byte `k` of a word, byte 0 being the least significant one. -/
def byteOf (x k : Nat) : Nat :=
  (x >>> (8 * k)) % 256

/-! ## Binary coded decimal -/

/-- Source `bcd_to_dec`; the result is converted to `uint8_t`. -/
def bcd_to_dec (bcd_data : Nat) : Nat :=
  ((((bcd_data &&& 0xF0) >>> 4) * 10) +
   (bcd_data &&& 0x0F)) % UINT8_MOD

/-- Source `dec_to_bcd`; the result is converted to `uint8_t`. -/
def dec_to_bcd (dec_data : Nat) : Nat :=
  (((dec_data / 10) <<< 4) |||
   (dec_data % 10)) % UINT8_MOD

/-! ## Character array to integer -/

/-- The body of the loop of `char_array_to_u32`: `*dst_data <<= 4;` followed by
`*dst_data |= char_to_num(toupper(src_data[i]));`, for the character `c = src_data[i]`.
The shift is a `uint32_t` shift; the `int` returned by `toupper` is converted to the
`char` parameter of `char_to_num`. -/
def char_array_to_u32_step (dst : Nat) (c : Nat) : Nat :=
  ((dst <<< 4) % UINT32_MOD) ||| char_to_num (toupper c % UINT8_MOD)

/-- The loop `for (i = 0; i < len; i++)` of `char_array_to_u32`, entered at index `i` with
`n` iterations left and `*dst_data = dst`.  Reading outside `src` has no defined
result. -/
def char_array_to_u32_loop (src : List Nat) : Nat → Nat → Nat → Option Nat
  | 0, _, dst => some dst
  | n + 1, i, dst =>
    match src[i]? with
    | none => none
    | some c => char_array_to_u32_loop src n (i + 1) (char_array_to_u32_step dst c)

/-- Source `char_array_to_u32`.  The result is the returned flag together with the final
state of the object `dst_data` points to (`none` when `dst_data` is null). -/
def char_array_to_u32 (dst_data : Option Nat) (src_data : Option (List Nat))
    (src_data_len : Nat) : Option (Bool × Option Nat) :=
  match dst_data, src_data with
  | some dst, some src =>
    if src_data_len = 0 then
      some (false, some dst)
    else
      let len := if src_data_len > 8 then 8 else src_data_len
      match char_array_to_u32_loop src len 0 dst with
      | none => none
      | some d => some (true, some d)
  | _, _ => some (false, dst_data)

/-- The value of one hexadecimal digit, of either case, as the specification reads it
(it is not used by the functions of the source). -/
def hexDigitValue (c : Nat) : Nat :=
  if 0x30 ≤ c ∧ c ≤ 0x39 then c - 0x30
  else if 0x61 ≤ c ∧ c ≤ 0x66 then c - 0x61 + 10
  else c - 0x41 + 10

/-- The number a string of hexadecimal digits denotes, most significant digit first, as
the specification reads it. -/
def hexNumber (digits : List Nat) : Nat :=
  digits.foldl (fun acc c => 16 * acc + hexDigitValue c) 0

/-! ## Byte array to string -/

/-- Source `get_byte_array_to_str_len`; the arithmetic is `uint32_t` arithmetic. -/
def get_byte_array_to_str_len (byte_array_len : Nat) : Nat :=
  if byte_array_len = 0 then 0 else (byte_array_len * 3 + 1) % UINT32_MOD

/-- Store the bytes `vals` into the buffer `buf` from offset `off` on.  A store that does
not fit in the buffer has no defined result. -/
def writeAt (buf : List Nat) (off : Nat) (vals : List Nat) : Option (List Nat) :=
  if off + vals.length ≤ buf.length then
    some (buf.take off ++ vals ++ buf.drop (off + vals.length))
  else
    none

/-- The loop `for (i = 0; i < byte_array_len; i++)` of `byte_array_to_str`, entered at
index `i` with `n` iterations left: `snprintf(str + i * 3, 4, "%02X ", byte_array[i])`.
The offset `i * 3` is computed in `uint32_t`. -/
def byte_array_to_str_loop (byte_array : List Nat) : Nat → Nat → List Nat → Option (List Nat)
  | 0, _, str => some str
  | n + 1, i, str =>
    match byte_array[i]? with
    | none => none
    | some v =>
      match writeAt str ((i * 3) % UINT32_MOD) (snprintf_02X_space v) with
      | none => none
      | some str1 => byte_array_to_str_loop byte_array n (i + 1) str1

/-- Source `byte_array_to_str`.  The result is the returned flag together with the final
contents of the buffer `str` points to. -/
def byte_array_to_str (str : Option (List Nat)) (byte_array : Option (List Nat))
    (byte_array_len : Nat) : Option (Bool × Option (List Nat)) :=
  match str, byte_array with
  | some s, some b =>
    if byte_array_len = 0 then
      some (false, some s)
    else
      match byte_array_to_str_loop b byte_array_len 0 s with
      | none => none
      | some s1 =>
        match writeAt s1 ((byte_array_len * 3) % UINT32_MOD) [0x00] with
        | none => none
        | some s2 => some (true, some s2)
  | _, _ => some (false, str)

/-- The text the specification describes for the bytes `b`, without the terminator: for
each byte the two digits `num_to_char` gives for its high and its low nibble, and a
space.  It is what `byte_array_to_str`, defined above from the source, is compared
with. -/
def hexText : List Nat → List Nat
  | [] => []
  | v :: rest => num_to_char (v / 16) :: num_to_char (v % 16) :: 0x20 :: hexText rest

/-! ## String to byte array -/

/-- The conversion of one character to a nibble in `str_to_byte_array`: the character goes
through `toupper` into a `uint8_t`, from which `0x37` is subtracted when it is above
`0x39` and `0x30` otherwise, in `uint8_t` arithmetic. -/
def str_to_byte_array_nibble (c : Nat) : Nat :=
  let byte := toupper c % UINT8_MOD
  if byte > 0x39 then
    (byte + UINT8_MOD - 0x37) % UINT8_MOD
  else
    (byte + UINT8_MOD - 0x30) % UINT8_MOD

/-- The loop of `str_to_byte_array`, with the index `i`, the count `len` and the output
buffer as state.  The first argument bounds the number of iterations; `none` is returned
when it is used up, when a character is read outside the buffer `str`, or when a byte is
stored outside the buffer `byte_array`.  `i` and `len` are `uint32_t`. -/
def str_to_byte_array_loop (str : List Nat) (str_len : Nat) :
    Nat → Nat → Nat → List Nat → Option (Nat × List Nat)
  | fuel, i, len, byte_array =>
    if i < str_len then
      match fuel with
      | 0 => none
      | fuel1 + 1 =>
        match str[i]? with
        | none => none
        | some c =>
          if c = 0x20 ∨ c = 0x00 then
            str_to_byte_array_loop str str_len fuel1 ((i + 1) % UINT32_MOD) len byte_array
          else
            match str[(i + 1) % UINT32_MOD]? with
            | none => none
            | some c1 =>
              let byte_high := str_to_byte_array_nibble c
              let byte_low := str_to_byte_array_nibble c1
              if len < byte_array.length then
                str_to_byte_array_loop str str_len fuel1 ((i + 2) % UINT32_MOD)
                  ((len + 1) % UINT32_MOD)
                  (byte_array.set len (((byte_high <<< 4) ||| byte_low) % UINT8_MOD))
              else
                none
    else
      some (len, byte_array)

/-- Source `str_to_byte_array`.  The result is the returned count together with the final
contents of the buffer `byte_array` points to.  Every iteration of the loop moves the
index forward by at least one, so `str_len` iterations are enough for the loop to exit,
unless the index wraps around `2 ^ 32`, in which case the C loop starts over and never
exits. -/
def str_to_byte_array (byte_array : Option (List Nat)) (str : Option (List Nat))
    (str_len : Nat) : Option (Nat × Option (List Nat)) :=
  match byte_array, str with
  | some out, some s =>
    if str_len = 0 then
      some (0, some out)
    else
      match str_to_byte_array_loop s str_len str_len 0 0 out with
      | none => none
      | some (len, out1) => some (len, some out1)
  | _, _ => some (0, byte_array)

/-- A character `str_to_byte_array` skips at the start of an iteration: a space or a
NUL. -/
def isSeparator (c : Nat) : Prop :=
  c = 0x20 ∨ c = 0x00

instance (c : Nat) : Decidable (isSeparator c) := by
  unfold isSeparator; infer_instance

/-- The byte `str_to_byte_array` stores for the characters `c = str[i]` and
`c1 = str[i + 1]`: `(byte_high << 4) | byte_low`, converted to `uint8_t`. -/
def str_to_byte_array_byte (c c1 : Nat) : Nat :=
  ((str_to_byte_array_nibble c <<< 4) ||| str_to_byte_array_nibble c1) % UINT8_MOD

/-- A string made of two-character pairs with runs of characters around them, as the
specification describes the input of `str_to_byte_array`: each item is the run that
precedes a pair and the two characters of the pair, `trail` is the run after the last
pair. -/
def spacedText : List (List Nat × Nat × Nat) → List Nat → List Nat
  | [], trail => trail
  | (seps, c, c1) :: rest, trail => seps ++ c :: c1 :: spacedText rest trail

/-! ## Theorems -/

/-! ### Bit operations as arithmetic -/

/-- Masking with a byte mask placed at bit `s` selects the byte at bit `s`. -/
theorem and_byte_mask (x s : Nat) : x &&& (0xFF * 2 ^ s) = (x / 2 ^ s % 256) * 2 ^ s := by
  apply Nat.eq_of_testBit_eq
  intro i
  have h255 : (255 : Nat) = 2 ^ 8 - 1 := by norm_num
  have h256 : (256 : Nat) = 2 ^ 8 := by norm_num
  rw [Nat.testBit_and, Nat.mul_comm 0xFF, Nat.mul_comm _ (2 ^ s), Nat.testBit_mul_pow_two,
    Nat.testBit_mul_pow_two, h256, Nat.testBit_mod_two_pow, ← Nat.shiftRight_eq_div_pow,
    Nat.testBit_shiftRight]
  simp only [h255, Nat.testBit_two_pow_sub_one]
  by_cases h : s ≤ i
  · simp [h]
    exact Bool.and_comm _ _
  · simp [h]

/-- Or-ing a value below `2 ^ s` into a multiple of `2 ^ s` adds it. -/
theorem or_of_disjoint (a b s : Nat) (hb : b < 2 ^ s) : a * 2 ^ s ||| b = a * 2 ^ s + b := by
  rw [Nat.mul_comm, ← Nat.mul_add_lt_is_or hb]

/-- The value of `byte_swap_16`, in terms of the two low bytes of the argument. -/
theorem byte_swap_16_eq (x : Nat) :
    byte_swap_16 x = (x / 256 % 256) + (x % 256) * 256 := by
  unfold byte_swap_16 UINT16_MOD
  have h1 := and_byte_mask x 8
  have h2 := and_byte_mask x 0
  norm_num at h1 h2
  rw [h1, h2, Nat.shiftLeft_eq, Nat.shiftRight_eq_div_pow, Nat.or_comm]
  have := or_of_disjoint (x % 256) (x / 256 % 256 * 256 / 2 ^ 8) 8 (by norm_num; omega)
  rw [this]
  norm_num
  omega

/-- The value of `byte_swap_32`, in terms of the four low bytes of the argument. -/
theorem byte_swap_32_eq (x : Nat) :
    byte_swap_32 x = (x / 16777216 % 256) + (x / 65536 % 256) * 256 +
      (x / 256 % 256) * 65536 + (x % 256) * 16777216 := by
  unfold byte_swap_32 UINT32_MOD
  have h1 := and_byte_mask x 24
  have h2 := and_byte_mask x 16
  have h3 := and_byte_mask x 8
  have h4 := and_byte_mask x 0
  norm_num at h1 h2 h3 h4
  rw [h1, h2, h3, h4]
  simp only [Nat.shiftLeft_eq, Nat.shiftRight_eq_div_pow]
  have e1 : x / 16777216 % 256 * 16777216 / 2 ^ 24 = x / 16777216 % 256 := by norm_num
  have e2 : x / 65536 % 256 * 65536 / 2 ^ 8 = (x / 65536 % 256) * 2 ^ 8 := by omega
  have e3 : x / 256 % 256 * 256 * 2 ^ 8 % 4294967296 = (x / 256 % 256) * 2 ^ 16 := by omega
  have e4 : x % 256 * 2 ^ 24 % 4294967296 = (x % 256) * 2 ^ 24 := by omega
  rw [e1, e2, e3, e4]
  rw [Nat.or_comm (x / 16777216 % 256), or_of_disjoint _ _ 8 (by omega)]
  rw [Nat.or_comm _ (x / 256 % 256 * 2 ^ 16), or_of_disjoint _ _ 16 (by omega)]
  rw [Nat.or_comm _ (x % 256 * 2 ^ 24), or_of_disjoint _ _ 24 (by omega)]
  omega

/-! ### Single character and nibble -/

/-- C3: `char_to_num` is total and classifies exactly.  For every character `c`: in
`'0'..'9'` the result is `c - '0'`; in `'a'..'f'` (resp. `'A'..'F'`) it is 10 plus the
offset from `'a'` (resp. `'A'`); on a hexadecimal digit the result is at most 15; on
every other character it is exactly `0xFF`; so the result is `0xFF` if and only if `c` is
not a hexadecimal digit. -/
theorem char_to_num_classifies (c : Nat) :
    ((0x30 ≤ c ∧ c ≤ 0x39) → char_to_num c = c - 0x30) ∧
    ((0x61 ≤ c ∧ c ≤ 0x66) → char_to_num c = 10 + (c - 0x61)) ∧
    ((0x41 ≤ c ∧ c ≤ 0x46) → char_to_num c = 10 + (c - 0x41)) ∧
    (isHexDigit c → char_to_num c ≤ 15) ∧
    (¬ isHexDigit c → char_to_num c = 0xFF) ∧
    (char_to_num c = 0xFF ↔ ¬ isHexDigit c) := by
  unfold char_to_num isHexDigit UINT8_MOD
  refine ⟨?_, ?_, ?_, ?_, ?_, ?_⟩ <;> split_ifs <;> omega

/-- C4: `num_to_char` maps 0..9 to `'0' + num`, 10..15 to `'A' + (num - 10)` and every
value from 16 on (so all of 16..255) to `'Z'`; the result is `'Z'` if and only if
`num ≥ 16`. -/
theorem num_to_char_classifies (num : Nat) :
    (num ≤ 9 → num_to_char num = 0x30 + num) ∧
    ((10 ≤ num ∧ num ≤ 15) → num_to_char num = 0x41 + (num - 10)) ∧
    (16 ≤ num → num_to_char num = 0x5A) ∧
    (num_to_char num = 0x5A ↔ 16 ≤ num) := by
  unfold num_to_char UINT8_MOD
  refine ⟨?_, ?_, ?_, ?_⟩ <;> split_ifs <;> omega

/-- C5: nibble round trip, `char_to_num (num_to_char n) = n` for every `n` in 0..15. -/
theorem char_to_num_num_to_char (n : Nat) (h : n ≤ 15) :
    char_to_num (num_to_char n) = n := by
  unfold char_to_num num_to_char UINT8_MOD
  split_ifs <;> omega

/-- C5 at the nibble 11 (the character `'B'`). -/
theorem char_to_num_num_to_char_witness :
    (11 : Nat) ≤ 15 ∧ num_to_char 11 = 0x42 ∧ char_to_num (num_to_char 11) = 11 :=
  ⟨by decide, by decide, char_to_num_num_to_char 11 (by decide)⟩

/-! ### Endianness -/

/-- A 16-bit value is made of two bytes. -/
theorem bytes16 (x : Nat) (hx : x < 65536) :
    ∃ b0 b1, b0 < 256 ∧ b1 < 256 ∧ x = b0 + 256 * b1 :=
  ⟨x % 256, x / 256, by omega, by omega, by omega⟩

/-- A 32-bit value is made of four bytes. -/
theorem bytes32 (x : Nat) (hx : x < 4294967296) :
    ∃ b0 b1 b2 b3, b0 < 256 ∧ b1 < 256 ∧ b2 < 256 ∧ b3 < 256 ∧
      x = b0 + 256 * b1 + 65536 * b2 + 16777216 * b3 :=
  ⟨x % 256, x / 256 % 256, x / 65536 % 256, x / 16777216,
    by omega, by omega, by omega, by omega, by omega⟩

/-- The function `byte_swap_16` on a value given by its bytes. -/
theorem byte_swap_16_bytes (b0 b1 : Nat) (h0 : b0 < 256) (h1 : b1 < 256) :
    byte_swap_16 (b0 + 256 * b1) = b1 + 256 * b0 := by
  rw [byte_swap_16_eq]; omega

/-- The function `byte_swap_32` on a value given by its bytes. -/
theorem byte_swap_32_bytes (b0 b1 b2 b3 : Nat) (h0 : b0 < 256) (h1 : b1 < 256)
    (h2 : b2 < 256) (h3 : b3 < 256) :
    byte_swap_32 (b0 + 256 * b1 + 65536 * b2 + 16777216 * b3) =
      b3 + 256 * b2 + 65536 * b1 + 16777216 * b0 := by
  rw [byte_swap_32_eq]; omega

/-- The bytes of a 32-bit value given by its bytes. -/
theorem byteOf_bytes32 (c0 c1 c2 c3 : Nat) (h0 : c0 < 256) (h1 : c1 < 256)
    (h2 : c2 < 256) (h3 : c3 < 256) :
    byteOf (c0 + 256 * c1 + 65536 * c2 + 16777216 * c3) 0 = c0 ∧
    byteOf (c0 + 256 * c1 + 65536 * c2 + 16777216 * c3) 1 = c1 ∧
    byteOf (c0 + 256 * c1 + 65536 * c2 + 16777216 * c3) 2 = c2 ∧
    byteOf (c0 + 256 * c1 + 65536 * c2 + 16777216 * c3) 3 = c3 := by
  have e1 : (c0 + 256 * c1 + 65536 * c2 + 16777216 * c3) / 256 =
      c1 + 256 * c2 + 65536 * c3 := by omega
  have e2 : (c0 + 256 * c1 + 65536 * c2 + 16777216 * c3) / 65536 = c2 + 256 * c3 := by omega
  have e3 : (c0 + 256 * c1 + 65536 * c2 + 16777216 * c3) / 16777216 = c3 := by omega
  unfold byteOf
  simp only [Nat.shiftRight_eq_div_pow]
  norm_num
  rw [e1, e2, e3]
  omega

/-- C6: `byte_swap_16` and `byte_swap_32` reverse the byte order.  For every 16-bit `x`
byte `k` of `byte_swap_16 x` is byte `1 - k` of `x` (`k` in 0..1) and the result is a
16-bit value; for every 32-bit `x` byte `k` of `byte_swap_32 x` is byte `3 - k` of `x`
(`k` in 0..3) and the result is a 32-bit value.  So `0x1234` becomes `0x3412` and
`0x12345678` becomes `0x78563412`. -/
theorem byte_swap_reverses_bytes :
    (∀ x, x < UINT16_MOD → byte_swap_16 x < UINT16_MOD ∧
      ∀ k, k < 2 → byteOf (byte_swap_16 x) k = byteOf x (1 - k)) ∧
    (∀ x, x < UINT32_MOD → byte_swap_32 x < UINT32_MOD ∧
      ∀ k, k < 4 → byteOf (byte_swap_32 x) k = byteOf x (3 - k)) ∧
    byte_swap_16 0x1234 = 0x3412 ∧ byte_swap_32 0x12345678 = 0x78563412 := by
  refine ⟨?_, ?_, by decide, by decide⟩
  · intro x hx
    unfold UINT16_MOD at *
    obtain ⟨b0, b1, h0, h1, rfl⟩ := bytes16 x hx
    rw [byte_swap_16_bytes b0 b1 h0 h1]
    refine ⟨by omega, ?_⟩
    intro k hk
    unfold byteOf
    interval_cases k <;> simp only [Nat.shiftRight_eq_div_pow] <;> norm_num <;> omega
  · intro x hx
    unfold UINT32_MOD at *
    obtain ⟨b0, b1, b2, b3, h0, h1, h2, h3, rfl⟩ := bytes32 x hx
    rw [byte_swap_32_bytes b0 b1 b2 b3 h0 h1 h2 h3]
    refine ⟨by omega, ?_⟩
    intro k hk
    obtain ⟨p0, p1, p2, p3⟩ := byteOf_bytes32 b0 b1 b2 b3 h0 h1 h2 h3
    obtain ⟨q0, q1, q2, q3⟩ := byteOf_bytes32 b3 b2 b1 b0 h3 h2 h1 h0
    interval_cases k
    · rw [q0, p3]
    · rw [q1, p2]
    · rw [q2, p1]
    · rw [q3, p0]

/-- C7: the byte swap is an involution at both widths, `byte_swap_16 (byte_swap_16 x) = x`
for every 16-bit `x` and `byte_swap_32 (byte_swap_32 x) = x` for every 32-bit `x`. -/
theorem byte_swap_involution :
    (∀ x, x < UINT16_MOD → byte_swap_16 (byte_swap_16 x) = x) ∧
    (∀ x, x < UINT32_MOD → byte_swap_32 (byte_swap_32 x) = x) := by
  constructor
  · intro x hx
    unfold UINT16_MOD at hx
    obtain ⟨b0, b1, h0, h1, rfl⟩ := bytes16 x hx
    rw [byte_swap_16_bytes b0 b1 h0 h1, byte_swap_16_bytes b1 b0 h1 h0]
  · intro x hx
    unfold UINT32_MOD at hx
    obtain ⟨b0, b1, b2, b3, h0, h1, h2, h3, rfl⟩ := bytes32 x hx
    rw [byte_swap_32_bytes b0 b1 b2 b3 h0 h1 h2 h3, byte_swap_32_bytes b3 b2 b1 b0 h3 h2 h1 h0]

/-! ### Binary coded decimal -/

/-- C8: BCD round trip, `bcd_to_dec (dec_to_bcd d) = d` for every decimal `d` in 0..99. -/
theorem bcd_to_dec_dec_to_bcd (d : Nat) (h : d ≤ 99) : bcd_to_dec (dec_to_bcd d) = d := by
  interval_cases d <;> decide

/-- C8 at 42, whose BCD code is `0x42`. -/
theorem bcd_to_dec_dec_to_bcd_witness :
    (42 : Nat) ≤ 99 ∧ dec_to_bcd 42 = 0x42 ∧ bcd_to_dec (dec_to_bcd 42) = 42 :=
  ⟨by decide, by decide, bcd_to_dec_dec_to_bcd 42 (by decide)⟩

/-! ### Size of the string buffer -/

/-- C9, as stated, fails: 1431655765 is a positive 32-bit length and
`get_byte_array_to_str_len` returns 0 for it, not `3 * 1431655765 + 1 = 4294967296`, which
no `uint32_t` can hold. -/
theorem get_byte_array_to_str_len_overflow :
    0 < 1431655765 ∧ 1431655765 < UINT32_MOD ∧
    get_byte_array_to_str_len 1431655765 = 0 ∧
    get_byte_array_to_str_len 1431655765 ≠ 3 * 1431655765 + 1 := by
  decide

/-- C9, amended: `get_byte_array_to_str_len 0 = 0`, and for every `n` with
`0 < n ≤ 1431655764` (the lengths for which `3 * n + 1` is a 32-bit value),
`get_byte_array_to_str_len n = 3 * n + 1`. -/
theorem get_byte_array_to_str_len_eq (n : Nat) (h0 : 0 < n) (hn : n ≤ 1431655764) :
    get_byte_array_to_str_len 0 = 0 ∧ get_byte_array_to_str_len n = 3 * n + 1 := by
  unfold get_byte_array_to_str_len UINT32_MOD
  refine ⟨by simp, ?_⟩
  rw [if_neg (by omega)]
  omega

/-- C9 (amended) at the largest length covered, 1431655764, whose size is
`4294967293`. -/
theorem get_byte_array_to_str_len_eq_witness :
    get_byte_array_to_str_len 0 = 0 ∧ get_byte_array_to_str_len 1431655764 = 4294967293 :=
  get_byte_array_to_str_len_eq 1431655764 (by decide) (by decide)

/-! ### Character array to integer -/

/-- On a hexadecimal digit, `toupper` followed by `char_to_num` gives the value of the digit,
which is below 16. -/
theorem char_to_num_toupper_hex (c : Nat) (hc : isHexDigit c) :
    char_to_num (toupper c % UINT8_MOD) = hexDigitValue c ∧ hexDigitValue c < 16 := by
  unfold isHexDigit at hc
  unfold char_to_num toupper hexDigitValue UINT8_MOD
  constructor <;> split_ifs <;> omega

/-- Shifting a 32-bit accumulator left by four and or-ing a nibble in appends the nibble. -/
theorem shift_or_nibble (d v : Nat) (hv : v < 16) :
    ((d <<< 4) % UINT32_MOD) ||| v = (d * 16 + v) % UINT32_MOD := by
  unfold UINT32_MOD
  have e : (d <<< 4) % 4294967296 = (d % 268435456) * 2 ^ 4 := by
    rw [Nat.shiftLeft_eq]; omega
  rw [e, or_of_disjoint _ _ 4 (by omega)]
  omega

/-- The loop body of `char_array_to_u32` on a hexadecimal digit. -/
theorem char_array_to_u32_step_hex (d c : Nat) (hc : isHexDigit c) :
    char_array_to_u32_step d c = (d * 16 + hexDigitValue c) % UINT32_MOD := by
  obtain ⟨h1, h2⟩ := char_to_num_toupper_hex c hc
  unfold char_array_to_u32_step
  rw [h1, shift_or_nibble d _ h2]

/-- The loop of `char_array_to_u32` is a left fold of its body over the characters it reads,
as long as they all lie inside the buffer. -/
theorem char_array_to_u32_loop_eq (src : List Nat) (n i d : Nat) (h : i + n ≤ src.length) :
    char_array_to_u32_loop src n i d =
      some (((src.drop i).take n).foldl char_array_to_u32_step d) := by
  induction n generalizing i d with
  | zero => simp [char_array_to_u32_loop]
  | succ n ih =>
    have hi : i < src.length := by omega
    rw [char_array_to_u32_loop, List.getElem?_eq_getElem hi]
    simp only
    rw [ih (i + 1) _ (by omega), List.drop_eq_getElem_cons hi, List.take_succ_cons,
      List.foldl_cons]

/-- Appending a digit to a hexadecimal number. -/
theorem hexNumber_append (l : List Nat) (c : Nat) :
    hexNumber (l ++ [c]) = 16 * hexNumber l + hexDigitValue c := by
  simp [hexNumber, List.foldl_append]

/-- A number of `k` hexadecimal digits is below `16 ^ k`. -/
theorem hexNumber_lt (l : List Nat) (hl : ∀ c ∈ l, isHexDigit c) :
    hexNumber l < 16 ^ l.length := by
  induction l using List.reverseRecOn with
  | nil => simp [hexNumber]
  | append_singleton l c ih =>
    have h1 := ih (fun x hx => hl x (by simp [hx]))
    have h2 := (char_to_num_toupper_hex c (hl c (by simp))).2
    rw [hexNumber_append, List.length_append, List.length_singleton, pow_succ]
    omega

/-- Folding the loop body over hexadecimal digits appends them to the accumulator, modulo
`2 ^ 32`. -/
theorem foldl_step_hex (l : List Nat) (d : Nat) (hl : ∀ c ∈ l, isHexDigit c) :
    (l.foldl char_array_to_u32_step d) % UINT32_MOD =
      (d * 16 ^ l.length + hexNumber l) % UINT32_MOD := by
  induction l using List.reverseRecOn with
  | nil => simp [hexNumber]
  | append_singleton l c ih =>
    have h1 := ih (fun x hx => hl x (by simp [hx]))
    rw [List.foldl_append, List.foldl_cons, List.foldl_nil,
      char_array_to_u32_step_hex _ _ (hl c (by simp)), hexNumber_append, List.length_append,
      List.length_singleton, pow_succ, ← Nat.mul_assoc]
    unfold UINT32_MOD at *
    omega

/-- After at least one hexadecimal digit the accumulator is a 32-bit value. -/
theorem foldl_step_lt (l : List Nat) (d : Nat) (hl : ∀ c ∈ l, isHexDigit c) (hne : l ≠ []) :
    l.foldl char_array_to_u32_step d < UINT32_MOD := by
  induction l using List.reverseRecOn with
  | nil => exact absurd rfl hne
  | append_singleton l c ih =>
    rw [List.foldl_append, List.foldl_cons, List.foldl_nil,
      char_array_to_u32_step_hex _ _ (hl c (by simp))]
    exact Nat.mod_lt _ (by decide)

/-- C10: for every `src` of exactly 8 hexadecimal digits (of either case), with
`src_len = 8`, and for every prior content `d0` of `*dst`, `char_array_to_u32` returns
`true` and leaves in `*dst` the 32-bit number the 8 digits denote, most significant digit
first. -/
theorem char_array_to_u32_eight_digits (src : List Nat) (d0 : Nat)
    (hlen : src.length = 8) (hsrc : ∀ c ∈ src, isHexDigit c) :
    char_array_to_u32 (some d0) (some src) 8 = some (true, some (hexNumber src)) ∧
    hexNumber src < UINT32_MOD := by
  have hlt := hexNumber_lt src hsrc
  have hne : src ≠ [] := by intro h; simp [h] at hlen
  have h1 := foldl_step_hex src d0 hsrc
  have h2 := foldl_step_lt src d0 hsrc hne
  rw [hlen] at hlt h1
  have hval : src.foldl char_array_to_u32_step d0 = hexNumber src := by
    unfold UINT32_MOD at *
    norm_num at hlt h1
    omega
  have hloop := char_array_to_u32_loop_eq src 8 0 d0 (by omega)
  rw [List.drop_zero, ← hlen, List.take_length, hval] at hloop
  refine ⟨?_, by unfold UINT32_MOD; norm_num at hlt; omega⟩
  unfold char_array_to_u32
  simp only [hlen] at hloop
  simp [hloop]

/-- C10 on `"1A2B3C4D"`, with `0xDEADBEEF` in `*dst` before the call: the result is
`0x1A2B3C4D`. -/
theorem char_array_to_u32_eight_digits_witness :
    char_array_to_u32 (some 0xDEADBEEF) (some (ascii "1A2B3C4D")) 8 =
      some (true, some (hexNumber (ascii "1A2B3C4D"))) ∧
    hexNumber (ascii "1A2B3C4D") = 0x1A2B3C4D :=
  ⟨(char_array_to_u32_eight_digits (ascii "1A2B3C4D") 0xDEADBEEF (by decide) (by decide)).1,
    by decide⟩

/-! ### Byte array to string -/

/-- The digit `printf` prints for a nibble is the one `num_to_char` returns. -/
theorem upperHexDigits_eq (n : Nat) (h : n < 16) : upperHexDigits.getD n 0 = num_to_char n := by
  interval_cases n <;> decide

/-- The bytes stored by the `snprintf` call, in terms of `num_to_char`. -/
theorem snprintf_02X_space_eq (v : Nat) (hv : v < 256) :
    snprintf_02X_space v = [num_to_char (v / 16), num_to_char (v % 16), 0x20, 0x00] := by
  unfold snprintf_02X_space
  rw [upperHexDigits_eq _ (Nat.mod_lt _ (by decide)), upperHexDigits_eq _ (Nat.mod_lt _ (by decide)),
    Nat.mod_eq_of_lt (by omega : v / 16 < 16)]

/-- The text of `n` bytes has `3 * n` characters. -/
theorem hexText_length (b : List Nat) : (hexText b).length = 3 * b.length := by
  induction b with
  | nil => rfl
  | cons v rest ih => simp only [hexText, List.length_cons, ih]; omega

/-- A store right after a prefix of the buffer leaves the prefix alone and replaces the
first characters of what follows. -/
theorem writeAt_append (pre rest vals : List Nat) (h : vals.length ≤ rest.length) :
    writeAt (pre ++ rest) pre.length vals = some (pre ++ vals ++ rest.drop vals.length) := by
  unfold writeAt
  rw [if_pos (by rw [List.length_append]; omega), List.take_left' rfl, List.drop_append]

/-- A store does not change the size of the buffer. -/
theorem writeAt_length (buf vals out : List Nat) (off : Nat) (h : writeAt buf off vals = some out) :
    out.length = buf.length := by
  unfold writeAt at h
  split_ifs at h with hle
  cases h
  simp only [List.length_append, List.length_take, List.length_drop]
  omega

/-- A store that fits in the buffer succeeds. -/
theorem writeAt_isSome (buf vals : List Nat) (off : Nat) (h : off + vals.length ≤ buf.length) :
    ∃ out, writeAt buf off vals = some out ∧ out.length = buf.length := by
  have : writeAt buf off vals = some (buf.take off ++ vals ++ buf.drop (off + vals.length)) := by
    unfold writeAt; rw [if_pos h]
  exact ⟨_, this, writeAt_length _ _ _ _ this⟩

/-- The loop of `byte_array_to_str` stays inside a buffer of `3 * byte_array_len + 1`
characters. -/
theorem byte_array_to_str_loop_isSome (b : List Nat) (n i : Nat) (str : List Nat)
    (hb : i + n ≤ b.length) (hs : 3 * (i + n) + 1 ≤ str.length) :
    ∃ out, byte_array_to_str_loop b n i str = some out ∧ out.length = str.length := by
  induction n generalizing i str with
  | zero => exact ⟨str, rfl, rfl⟩
  | succ n ih =>
    have hi : i < b.length := by omega
    have hoff : (i * 3) % UINT32_MOD + (snprintf_02X_space b[i]).length ≤ str.length := by
      have := Nat.mod_le (i * 3) UINT32_MOD
      simp only [snprintf_02X_space, List.length_cons, List.length_nil]
      omega
    obtain ⟨s1, h1, hl1⟩ := writeAt_isSome str _ _ hoff
    obtain ⟨out, h2, hl2⟩ := ih (i + 1) s1 (by omega) (by omega)
    refine ⟨out, ?_, by omega⟩
    rw [byte_array_to_str_loop, List.getElem?_eq_getElem hi]
    simp only [h1, h2]

/-- The loop of `byte_array_to_str`, entered at index `i` with the text of the first `i`
bytes in the buffer, appends the text of the next `n` bytes, as long as the offsets
`3 * i` of the bytes do not wrap around `2 ^ 32` (the offset after the last byte may).
The character after the text is unspecified here
(it is the NUL of the last `snprintf`, or the old content when `n = 0`). -/
theorem byte_array_to_str_loop_eq (b : List Nat) (hbytes : ∀ x ∈ b, x < 256) (n i : Nat)
    (pre rest : List Nat) (hpre : pre.length = 3 * i) (hb : i + n ≤ b.length)
    (hw : 3 * (i + n) ≤ UINT32_MOD + 2) (hs : 3 * n + 1 ≤ rest.length) :
    ∃ z, byte_array_to_str_loop b n i (pre ++ rest) =
      some (pre ++ hexText ((b.drop i).take n) ++ z :: rest.drop (3 * n + 1)) := by
  induction n generalizing i pre rest with
  | zero =>
    cases rest with
    | nil => simp at hs
    | cons z r => exact ⟨z, by simp [byte_array_to_str_loop, hexText]⟩
  | succ n ih =>
    have hi : i < b.length := by omega
    have hoff : (i * 3) % UINT32_MOD = pre.length := by
      unfold UINT32_MOD at *; omega
    have hv : b[i] < 256 := hbytes _ (List.getElem_mem hi)
    obtain ⟨z, hz⟩ := ih (i + 1) (pre ++ [num_to_char (b[i] / 16), num_to_char (b[i] % 16), 0x20])
      (0x00 :: rest.drop 4) (by simp [hpre]; omega) (by omega) (by omega)
      (by simp only [List.length_cons, List.length_drop]; omega)
    refine ⟨z, ?_⟩
    rw [byte_array_to_str_loop, List.getElem?_eq_getElem hi]
    simp only [hoff, snprintf_02X_space_eq _ hv]
    rw [writeAt_append pre rest _ (by simp only [List.length_cons, List.length_nil]; omega)]
    simp only [List.length_cons, List.length_nil]
    have e1 : pre ++ [num_to_char (b[i] / 16), num_to_char (b[i] % 16), 0x20, 0x00] ++
        List.drop (0 + 1 + 1 + 1 + 1) rest =
        (pre ++ [num_to_char (b[i] / 16), num_to_char (b[i] % 16), 0x20]) ++
        (0x00 :: rest.drop 4) := by simp
    rw [e1, hz, List.drop_eq_getElem_cons hi, List.take_succ_cons]
    simp only [hexText, List.append_assoc, List.cons_append, List.nil_append, List.drop_succ_cons,
      List.drop_drop]
    have e2 : 4 + 3 * n = 3 * (n + 1) + 1 := by omega
    rw [e2]


/-- With a buffer of at least `3 * n + 1` characters `byte_array_to_str` returns `true` on
every non-empty byte array. -/
theorem byte_array_to_str_isSome (b str : List Nat) (hne : b ≠ [])
    (hs : 3 * b.length + 1 ≤ str.length) :
    ∃ out, byte_array_to_str (some str) (some b) b.length = some (true, some out) ∧
      out.length = str.length := by
  have hn : b.length ≠ 0 := by simpa using hne
  obtain ⟨s1, h1, hl1⟩ := byte_array_to_str_loop_isSome b b.length 0 str (by omega) (by omega)
  have hoff : (b.length * 3) % UINT32_MOD + [0x00].length ≤ s1.length := by
    have := Nat.mod_le (b.length * 3) UINT32_MOD
    simp only [List.length_cons, List.length_nil]
    omega
  obtain ⟨s2, h2, hl2⟩ := writeAt_isSome s1 _ _ hoff
  refine ⟨s2, ?_, by omega⟩
  unfold byte_array_to_str
  simp only [if_neg hn, h1, h2]

/-- The contents of the buffer after `byte_array_to_str`, for a length `n` with
`3 * n < 2 ^ 32`: the text of the bytes, the terminator, and the old contents from
offset `3 * n + 1` on. -/
theorem byte_array_to_str_eq (b str : List Nat) (hbytes : ∀ x ∈ b, x < 256) (hne : b ≠ [])
    (hw : 3 * b.length < UINT32_MOD) (hs : 3 * b.length + 1 ≤ str.length) :
    byte_array_to_str (some str) (some b) b.length =
      some (true, some (hexText b ++ 0x00 :: str.drop (3 * b.length + 1))) := by
  have hn : b.length ≠ 0 := by simpa using hne
  obtain ⟨z, hz⟩ := byte_array_to_str_loop_eq b hbytes b.length 0 [] str rfl (by omega)
    (by omega) hs
  rw [List.nil_append, List.drop_zero, List.take_length, List.nil_append] at hz
  have hoff : (b.length * 3) % UINT32_MOD = (hexText b).length := by
    rw [hexText_length]; unfold UINT32_MOD at *; omega
  unfold byte_array_to_str
  simp only [if_neg hn, hz, hoff]
  rw [writeAt_append (hexText b) _ [0x00] (by simp)]
  simp


/-- The three characters the text holds for byte `i`. -/
theorem hexText_getElem (b : List Nat) (i : Nat) (hi : i < b.length) :
    (hexText b)[3 * i]? = some (num_to_char (b[i] / 16)) ∧
    (hexText b)[3 * i + 1]? = some (num_to_char (b[i] % 16)) ∧
    (hexText b)[3 * i + 2]? = some 0x20 := by
  induction b generalizing i with
  | nil => simp at hi
  | cons v rest ih =>
    cases i with
    | zero => simp [hexText]
    | succ i =>
      have hi1 : i < rest.length := by simpa using hi
      obtain ⟨h1, h2, h3⟩ := ih i hi1
      have e1 : 3 * (i + 1) = 3 * i + 1 + 1 + 1 := by omega
      have e2 : 3 * (i + 1) + 1 = 3 * i + 1 + 1 + 1 + 1 := by omega
      have e3 : 3 * (i + 1) + 2 = 3 * i + 2 + 1 + 1 + 1 := by omega
      have e4 : 3 * i + 1 + 1 + 1 + 2 = 3 * i + 2 + 1 + 1 + 1 := by omega
      rw [e2, e3, e1]
      simp only [hexText, List.getElem?_cons_succ, List.getElem_cons_succ]
      exact ⟨h1, h2, h3⟩

/-- C2, amended: for every non-empty byte array `b` of length `n ≤ 1431655764` (so that
`3 * n + 1` is a 32-bit value) and every buffer `str` of at least `3 * n + 1` characters,
`byte_array_to_str` returns `true` and writes exactly `3 * n + 1` characters: for each
`i < n`, `str[3i]` and `str[3i+1]` are `num_to_char` of the high and the low nibble of
byte `i` and `str[3i+2]` is a space; `str[3n]` is the NUL terminator; the characters from
offset `3 * n + 1` on are unchanged; and `3 * n + 1` is `get_byte_array_to_str_len n`. -/
theorem byte_array_to_str_layout (b str : List Nat) (hbytes : ∀ x ∈ b, x < 256) (hne : b ≠ [])
    (hn : b.length ≤ 1431655764) (hs : 3 * b.length + 1 ≤ str.length) :
    ∃ out, byte_array_to_str (some str) (some b) b.length = some (true, some out) ∧
      out = hexText b ++ 0x00 :: str.drop (3 * b.length + 1) ∧
      (∀ i (hi : i < b.length), out[3 * i]? = some (num_to_char (b[i] / 16)) ∧
        out[3 * i + 1]? = some (num_to_char (b[i] % 16)) ∧ out[3 * i + 2]? = some 0x20) ∧
      out[3 * b.length]? = some 0x00 ∧
      (∀ j, 3 * b.length + 1 ≤ j → out[j]? = str[j]?) ∧
      get_byte_array_to_str_len b.length = 3 * b.length + 1 := by
  have hn0 : b.length ≠ 0 := by simpa using hne
  refine ⟨_, byte_array_to_str_eq b str hbytes hne (by unfold UINT32_MOD; omega) hs, rfl,
    ?_, ?_, ?_, ?_⟩
  · intro i hi
    obtain ⟨h1, h2, h3⟩ := hexText_getElem b i hi
    have hl := hexText_length b
    rw [List.getElem?_append_left (by omega), List.getElem?_append_left (by omega),
      List.getElem?_append_left (by omega)]
    exact ⟨h1, h2, h3⟩
  · rw [List.getElem?_append_right (by rw [hexText_length]), hexText_length]
    simp
  · intro j hj
    rw [List.getElem?_append_right (by rw [hexText_length]; omega), hexText_length]
    obtain ⟨k, rfl⟩ : ∃ k, j = 3 * b.length + 1 + k := ⟨j - (3 * b.length + 1), by omega⟩
    have e : 3 * b.length + 1 + k - 3 * b.length = k + 1 := by omega
    rw [e, List.getElem?_cons_succ, List.getElem?_drop]
  · unfold get_byte_array_to_str_len UINT32_MOD
    rw [if_neg hn0]
    omega

/-- C2 (amended) on the bytes `01 AB FF` and a buffer of 12 characters. -/
theorem byte_array_to_str_layout_witness :
    ∃ out, byte_array_to_str (some (List.replicate 12 0x55)) (some [0x01, 0xAB, 0xFF]) 3 =
        some (true, some out) ∧
      out = [0x30, 0x31, 0x20, 0x41, 0x42, 0x20, 0x46, 0x46, 0x20, 0x00, 0x55, 0x55] ∧
      get_byte_array_to_str_len 3 = 10 := by
  obtain ⟨out, h1, h2, -, -, -, h3⟩ := byte_array_to_str_layout [0x01, 0xAB, 0xFF]
    (List.replicate 12 0x55) (by decide) (by decide) (by decide) (by decide)
  exact ⟨out, h1, by rw [h2]; decide, h3⟩

/-- C2, as stated, fails for a byte array of 1431655765 bytes: `byte_array_to_str` returns
`true` and writes `3 * 1431655765 + 1 = 4294967296` characters (the text and the
terminator fill the whole buffer), while `get_byte_array_to_str_len 1431655765` is 0. -/
theorem byte_array_to_str_len_mismatch :
    byte_array_to_str (some (List.replicate 4294967296 0x55))
        (some (List.replicate 1431655765 0x00)) 1431655765 =
      some (true, some (hexText (List.replicate 1431655765 0x00) ++ [0x00])) ∧
    (hexText (List.replicate 1431655765 0x00) ++ [0x00]).length = 4294967296 ∧
    get_byte_array_to_str_len 1431655765 = 0 ∧
    (hexText (List.replicate 1431655765 0x00) ++ [0x00]).length ≠
      get_byte_array_to_str_len 1431655765 := by
  have hlen : (List.replicate 1431655765 0x00).length = 1431655765 := List.length_replicate _ _
  have hne : List.replicate 1431655765 0x00 ≠ [] := by
    intro h
    have := congrArg List.length h
    rw [hlen] at this
    exact absurd this (by decide)
  have h := byte_array_to_str_eq (List.replicate 1431655765 0x00)
    (List.replicate 4294967296 0x55)
    (fun x hx => by rw [List.eq_of_mem_replicate hx]; decide) hne
    (by rw [hlen]; decide) (by rw [hlen, List.length_replicate])
  rw [hlen] at h
  have hdrop : List.drop (3 * 1431655765 + 1) (List.replicate 4294967296 0x55) = [] :=
    List.drop_eq_nil_of_le (by rw [List.length_replicate])
  rw [hdrop] at h
  have hcount : (hexText (List.replicate 1431655765 0x00) ++ [0x00]).length = 4294967296 := by
    rw [List.length_append, hexText_length, hlen]
    rfl
  have hsize : get_byte_array_to_str_len 1431655765 = 0 := by decide
  refine ⟨h, hcount, hsize, ?_⟩
  rw [hcount, hsize]
  decide

/-! ### String to byte array, and the round trip -/

/-- The decoder maps the digit `num_to_char` gives for a nibble back to the nibble; the
digit is neither a space nor NUL. -/
theorem str_to_byte_array_nibble_num_to_char (n : Nat) (h : n < 16) :
    str_to_byte_array_nibble (num_to_char n) = n ∧ num_to_char n ≠ 0x20 ∧
      num_to_char n ≠ 0x00 := by
  interval_cases n <;> decide

/-- A byte is put together again from its two nibbles. -/
theorem nibbles_to_byte (v : Nat) (hv : v < 256) :
    ((v / 16) <<< 4 ||| (v % 16)) % UINT8_MOD = v := by
  rw [Nat.shiftLeft_eq, or_of_disjoint _ _ 4 (by omega)]
  unfold UINT8_MOD
  omega

/-- The loop of `str_to_byte_array` exits when the index has reached `str_len`. -/
theorem str_to_byte_array_loop_exit (str : List Nat) (str_len fuel i len : Nat)
    (out : List Nat) (h : ¬ i < str_len) :
    str_to_byte_array_loop str str_len fuel i len out = some (len, out) := by
  cases fuel <;> simp [str_to_byte_array_loop, h]

/-- One iteration of the loop of `str_to_byte_array` on a space or a NUL. -/
theorem str_to_byte_array_loop_skip (str : List Nat) (str_len fuel i len : Nat)
    (out : List Nat) (c : Nat) (h : i < str_len) (hc : str[i]? = some c)
    (hsep : c = 0x20 ∨ c = 0x00) :
    str_to_byte_array_loop str str_len (fuel + 1) i len out =
      str_to_byte_array_loop str str_len fuel ((i + 1) % UINT32_MOD) len out := by
  rw [str_to_byte_array_loop, if_pos h]
  simp only [hc, if_pos hsep]

/-- One iteration of the loop of `str_to_byte_array` on any other character: it is decoded
together with the character that follows it. -/
theorem str_to_byte_array_loop_pair (str : List Nat) (str_len fuel i len : Nat)
    (out : List Nat) (c c1 : Nat) (h : i < str_len) (hc : str[i]? = some c)
    (hsep : ¬ (c = 0x20 ∨ c = 0x00)) (hc1 : str[(i + 1) % UINT32_MOD]? = some c1)
    (hlen : len < out.length) :
    str_to_byte_array_loop str str_len (fuel + 1) i len out =
      str_to_byte_array_loop str str_len fuel ((i + 2) % UINT32_MOD) ((len + 1) % UINT32_MOD)
        (out.set len (((str_to_byte_array_nibble c <<< 4) ||| str_to_byte_array_nibble c1) %
          UINT8_MOD)) := by
  rw [str_to_byte_array_loop, if_pos h]
  simp only [hc, if_neg hsep, hc1, if_pos hlen]

/-- The first three characters after a prefix of a buffer. -/
theorem getElem_after_prefix (pre : List Nat) (a b c : Nat) (t : List Nat) :
    (pre ++ a :: b :: c :: t)[pre.length]? = some a ∧
    (pre ++ a :: b :: c :: t)[pre.length + 1]? = some b ∧
    (pre ++ a :: b :: c :: t)[pre.length + 2]? = some c := by
  refine ⟨?_, ?_, ?_⟩ <;> rw [List.getElem?_append_right (by omega)] <;> simp

/-- The loop of `str_to_byte_array` over the text of the bytes `bs`: it takes two
iterations for each byte, moves the index on by `3 * bs.length` and stores the bytes
`bs`. -/
theorem str_to_byte_array_loop_hexText (bs : List Nat) (hbytes : ∀ x ∈ bs, x < 256)
    (pre rest done free : List Nat) (str_len fuel : Nat)
    (hL : pre.length + 3 * bs.length ≤ str_len) (hM : str_len < UINT32_MOD)
    (hfree : bs.length ≤ free.length) (hdone : done.length + bs.length < UINT32_MOD)
    (hfuel : 2 * bs.length ≤ fuel) :
    str_to_byte_array_loop (pre ++ hexText bs ++ rest) str_len fuel pre.length done.length
        (done ++ free) =
      str_to_byte_array_loop (pre ++ hexText bs ++ rest) str_len (fuel - 2 * bs.length)
        (pre.length + 3 * bs.length) (done.length + bs.length)
        (done ++ bs ++ free.drop bs.length) := by
  induction bs generalizing pre done free fuel with
  | nil => simp [hexText]
  | cons v bs ih =>
    simp only [List.length_cons] at hL hfree hdone hfuel
    have hv : v < 256 := hbytes v (by simp)
    obtain ⟨nh1, nh2, nh3⟩ := str_to_byte_array_nibble_num_to_char (v / 16) (by omega)
    obtain ⟨nl1, -, -⟩ := str_to_byte_array_nibble_num_to_char (v % 16) (by omega)
    obtain ⟨f, rfl⟩ : ∃ f, fuel = f + 1 + 1 := ⟨fuel - 2, by omega⟩
    have hstr : pre ++ hexText (v :: bs) ++ rest =
        pre ++ num_to_char (v / 16) :: num_to_char (v % 16) :: 0x20 :: (hexText bs ++ rest) := by
      simp [hexText]
    obtain ⟨g0, g1, g2⟩ := getElem_after_prefix pre (num_to_char (v / 16))
      (num_to_char (v % 16)) 0x20 (hexText bs ++ rest)
    rw [← hstr] at g0 g1 g2
    have m1 : (pre.length + 1) % UINT32_MOD = pre.length + 1 := by
      unfold UINT32_MOD at *; omega
    have m2 : (pre.length + 2) % UINT32_MOD = pre.length + 2 := by
      unfold UINT32_MOD at *; omega
    have m3 : (pre.length + 2 + 1) % UINT32_MOD = pre.length + 3 := by
      unfold UINT32_MOD at *; omega
    have m4 : (done.length + 1) % UINT32_MOD = done.length + 1 := by
      unfold UINT32_MOD at *; omega
    rw [str_to_byte_array_loop_pair _ _ _ _ _ _ _ (num_to_char (v % 16)) (by omega) g0
      (by simp [nh2, nh3]) (by rw [m1]; exact g1) (by rw [List.length_append]; omega),
      m2, m4, nh1, nl1, nibbles_to_byte v hv,
      str_to_byte_array_loop_skip _ _ _ _ _ _ 0x20 (by omega) g2 (Or.inl rfl), m3]
    obtain ⟨x, free1, rfl⟩ : ∃ x free1, free = x :: free1 := by
      cases free with
      | nil => simp at hfree
      | cons x t => exact ⟨x, t, rfl⟩
    have hset : (done ++ x :: free1).set done.length v = (done ++ [v]) ++ free1 := by
      simp
    have hstr2 : pre ++ hexText (v :: bs) ++ rest =
        (pre ++ [num_to_char (v / 16), num_to_char (v % 16), 0x20]) ++ hexText bs ++ rest := by
      simp [hexText]
    have hpl : pre.length + 3 =
        (pre ++ [num_to_char (v / 16), num_to_char (v % 16), 0x20]).length := by simp
    have hdl : done.length + 1 = (done ++ [v]).length := by simp
    have key := ih (fun y hy => hbytes y (by simp [hy]))
      (pre ++ [num_to_char (v / 16), num_to_char (v % 16), 0x20]) (done ++ [v]) free1 f
      (by rw [← hpl]; omega) (by simpa using hfree) (by rw [← hdl]; omega) (by omega)
    rw [← hpl, ← hdl, ← hstr2] at key
    rw [hset, key]
    have e1 : f + 1 + 1 - 2 * (v :: bs).length = f - 2 * bs.length := by
      simp only [List.length_cons]; omega
    have e2 : pre.length + 3 + 3 * bs.length = pre.length + 3 * (v :: bs).length := by
      simp only [List.length_cons]; omega
    have e3 : done.length + 1 + bs.length = done.length + (v :: bs).length := by
      simp only [List.length_cons]; omega
    have e4 : done ++ [v] ++ bs ++ List.drop bs.length free1 =
        done ++ v :: bs ++ List.drop (v :: bs).length (x :: free1) := by
      simp
    rw [e1, e2, e3, e4]


/-- Decoding the text of the bytes `b` followed by a NUL, with `str_len` the length of the
text or one more. -/
theorem str_to_byte_array_hexText (b tail out : List Nat) (hbytes : ∀ x ∈ b, x < 256)
    (hne : b ≠ []) (ho : b.length ≤ out.length) :
    (3 * b.length < UINT32_MOD →
      str_to_byte_array (some out) (some (hexText b ++ 0x00 :: tail)) (3 * b.length) =
        some (b.length, some (b ++ out.drop b.length))) ∧
    (3 * b.length + 1 < UINT32_MOD →
      str_to_byte_array (some out) (some (hexText b ++ 0x00 :: tail)) (3 * b.length + 1) =
        some (b.length, some (b ++ out.drop b.length))) := by
  have hn0 : b.length ≠ 0 := by simpa using hne
  constructor
  · intro hw
    have key := str_to_byte_array_loop_hexText b hbytes [] (0x00 :: tail) [] out
      (3 * b.length) (3 * b.length) (by simp) hw ho
      (by simp only [List.length_nil]; unfold UINT32_MOD at *; omega) (by omega)
    simp only [List.nil_append, List.length_nil, Nat.zero_add] at key
    rw [str_to_byte_array_loop_exit _ _ _ (3 * b.length) _ _ (by omega)] at key
    unfold str_to_byte_array
    simp only [if_neg (by omega : ¬ 3 * b.length = 0), key]
  · intro hw
    have key := str_to_byte_array_loop_hexText b hbytes [] (0x00 :: tail) [] out
      (3 * b.length + 1) (3 * b.length + 1) (by simp) hw ho
      (by simp only [List.length_nil]; unfold UINT32_MOD at *; omega) (by omega)
    simp only [List.nil_append, List.length_nil, Nat.zero_add] at key
    have hnul : (hexText b ++ 0x00 :: tail)[3 * b.length]? = some 0x00 := by
      rw [List.getElem?_append_right (by rw [hexText_length]), hexText_length]
      simp
    have hm : (3 * b.length + 1) % UINT32_MOD = 3 * b.length + 1 := Nat.mod_eq_of_lt hw
    obtain ⟨f, hf⟩ : ∃ f, 3 * b.length + 1 - 2 * b.length = f + 1 := ⟨b.length, by omega⟩
    rw [hf, str_to_byte_array_loop_skip _ _ _ (3 * b.length) _ _ 0x00 (by omega) hnul
      (Or.inr rfl), hm,
      str_to_byte_array_loop_exit _ _ _ (3 * b.length + 1) _ _ (by omega)] at key
    unfold str_to_byte_array
    simp only [if_neg (by omega : ¬ 3 * b.length + 1 = 0), key]

/-- C1, amended: encode/decode round trip.  For every non-empty byte array `b` of length
`n`, `byte_array_to_str` returns `true`; when `3 * n ≤ 4294967295`, `str_to_byte_array`
applied to the string it produced, with `str_len = 3 * n`, returns the count `n` and
writes exactly the bytes of `b`, in order, leaving the rest of the output buffer
unchanged; and likewise with `str_len = 3 * n + 1` when `3 * n + 1 ≤ 4294967295`. -/
theorem encode_decode_round_trip (b str out : List Nat) (hbytes : ∀ x ∈ b, x < 256)
    (hne : b ≠ []) (hs : 3 * b.length + 1 ≤ str.length)
    (ho : b.length ≤ out.length) :
    ∃ s, byte_array_to_str (some str) (some b) b.length = some (true, some s) ∧
      (3 * b.length < UINT32_MOD →
        str_to_byte_array (some out) (some s) (3 * b.length) =
          some (b.length, some (b ++ out.drop b.length))) ∧
      (3 * b.length + 1 < UINT32_MOD →
        str_to_byte_array (some out) (some s) (3 * b.length + 1) =
          some (b.length, some (b ++ out.drop b.length))) := by
  by_cases hw : 3 * b.length < UINT32_MOD
  · exact ⟨_, byte_array_to_str_eq b str hbytes hne hw hs,
      str_to_byte_array_hexText b _ out hbytes hne ho⟩
  · obtain ⟨s, h1, -⟩ := byte_array_to_str_isSome b str hne hs
    exact ⟨s, h1, fun h => absurd h hw, fun h => absurd (by omega) hw⟩

/-- C1 (amended) on the bytes `01 AB FF`: the string is `"01 AB FF "` followed by NUL,
and it is decoded back to `01 AB FF` with count 3, for `str_len` 9 and 10. -/
theorem encode_decode_round_trip_witness :
    byte_array_to_str (some (List.replicate 10 0x55)) (some [0x01, 0xAB, 0xFF]) 3 =
      some (true, some (ascii "01 AB FF " ++ [0x00])) ∧
    str_to_byte_array (some [0, 0, 0]) (some (ascii "01 AB FF " ++ [0x00])) 9 =
      some (3, some [0x01, 0xAB, 0xFF]) ∧
    str_to_byte_array (some [0, 0, 0]) (some (ascii "01 AB FF " ++ [0x00])) 10 =
      some (3, some [0x01, 0xAB, 0xFF]) := by
  obtain ⟨s, h1, h2, h3⟩ := encode_decode_round_trip [0x01, 0xAB, 0xFF]
    (List.replicate 10 0x55) [0, 0, 0] (by decide) (by decide) (by decide) (by decide)
  have hs : s = ascii "01 AB FF " ++ [0x00] := by
    have h0 : byte_array_to_str (some (List.replicate 10 0x55)) (some [0x01, 0xAB, 0xFF]) 3 =
        some (true, some (ascii "01 AB FF " ++ [0x00])) := by decide
    have h4 : some (true, some s) = some (true, some (ascii "01 AB FF " ++ [0x00])) :=
      h1.symm.trans h0
    simpa using h4
  subst hs
  exact ⟨h1, h2 (by decide), h3 (by decide)⟩

/-! ### Character array to integer: length and content -/

/-- With both pointers present and a length of at least one, `char_array_to_u32` returns
`true` and folds its loop body over the first `min src_len 8` characters, provided they
lie inside the buffer. -/
theorem char_array_to_u32_ok (src : List Nat) (d0 n : Nat) (h1 : 1 ≤ n)
    (hlen : min n 8 ≤ src.length) :
    char_array_to_u32 (some d0) (some src) n =
      some (true, some ((src.take (min n 8)).foldl char_array_to_u32_step d0)) := by
  have hloop := char_array_to_u32_loop_eq src (min n 8) 0 d0 (by omega)
  rw [List.drop_zero] at hloop
  have hmin : (if n > 8 then 8 else n) = min n 8 := by
    split_ifs <;> omega
  unfold char_array_to_u32
  simp only [if_neg (by omega : ¬ n = 0), hmin, hloop]

/-- C11: `char_array_to_u32` consumes only the first 8 characters.  For every `src` (of at
least 8 characters), every `src_len` from 9 on (so all of 9..255) and every prior value
`d0` of `*dst`, the call returns `true` and leaves in `*dst` the fold of the loop body
over the first 8 characters, which is the value the call with `src_len = 8` leaves; a
buffer that agrees with `src` on the first 8 characters gives the same result, so the
characters at positions 8 and above never influence it. -/
theorem char_array_to_u32_first_eight (src : List Nat) (d0 n : Nat) (h9 : 9 ≤ n)
    (hlen : 8 ≤ src.length) :
    char_array_to_u32 (some d0) (some src) n =
      some (true, some ((src.take 8).foldl char_array_to_u32_step d0)) ∧
    char_array_to_u32 (some d0) (some src) n = char_array_to_u32 (some d0) (some src) 8 ∧
    (∀ src2 : List Nat, 8 ≤ src2.length → src2.take 8 = src.take 8 →
      char_array_to_u32 (some d0) (some src2) n = char_array_to_u32 (some d0) (some src) n) := by
  have e1 := char_array_to_u32_ok src d0 n (by omega) (by omega)
  have e2 := char_array_to_u32_ok src d0 8 (by omega) (by omega)
  rw [show min n 8 = 8 by omega] at e1
  rw [show min 8 8 = 8 by omega] at e2
  refine ⟨e1, by rw [e1, e2], ?_⟩
  intro src2 hlen2 htake
  have e3 := char_array_to_u32_ok src2 d0 n (by omega) (by omega)
  rw [show min n 8 = 8 by omega] at e3
  rw [e1, e3, htake]

/-- C11 on the ten characters `1A2B3C4D5E` with `src_len = 10`: the result is
`0x1A2B3C4D`, as with `src_len = 8`. -/
theorem char_array_to_u32_first_eight_witness :
    char_array_to_u32 (some 0) (some (ascii "1A2B3C4D5E")) 10 =
      some (true, some 0x1A2B3C4D) ∧
    char_array_to_u32 (some 0) (some (ascii "1A2B3C4D5E")) 10 =
      char_array_to_u32 (some 0) (some (ascii "1A2B3C4D5E")) 8 := by
  obtain ⟨h1, h2, -⟩ := char_array_to_u32_first_eight (ascii "1A2B3C4D5E") 0 10 (by decide)
    (by decide)
  exact ⟨h1.trans (by decide), h2⟩

/-- A character that is not a hexadecimal digit is mapped to `0xFF` by `toupper` followed
by `char_to_num`. -/
theorem toupper_not_hex (c : Nat) (hc : ¬ isHexDigit c) :
    char_to_num (toupper c) = 0xFF := by
  unfold isHexDigit at hc
  unfold char_to_num toupper UINT8_MOD
  split_ifs <;> omega

/-- The loop body of `char_array_to_u32` on a character that is a byte. -/
theorem char_array_to_u32_step_byte (acc c : Nat) (hc : c < 256) :
    char_array_to_u32_step acc c = ((acc <<< 4) % 2 ^ 32) ||| char_to_num (toupper c) := by
  have h : toupper c % UINT8_MOD = toupper c := by
    unfold toupper UINT8_MOD
    split_ifs <;> omega
  unfold char_array_to_u32_step
  rw [h]
  rfl

/-- C17: `char_array_to_u32` performs no content validation.  For every non-null `src`
(whatever its characters) with `src_len ≥ 1` and every prior value `d0` of `*dst`, it
returns `true` and the final `*dst` is the left fold, over the first `min src_len 8`
characters `c`, starting from `d0`, of `acc ↦ ((acc << 4) mod 2^32) | char_to_num
(toupper c)`; for a character that is not a hexadecimal digit the value or-ed in is the
full `0xFF`. -/
theorem char_array_to_u32_no_validation (src : List Nat) (d0 n : Nat) (h1 : 1 ≤ n)
    (hlen : min n 8 ≤ src.length) (hsrc : ∀ c ∈ src, c < 256) :
    char_array_to_u32 (some d0) (some src) n =
      some (true, some ((src.take (min n 8)).foldl
        (fun acc c => ((acc <<< 4) % 2 ^ 32) ||| char_to_num (toupper c)) d0)) ∧
    (∀ acc c, c < 256 → ¬ isHexDigit c →
      ((acc <<< 4) % 2 ^ 32) ||| char_to_num (toupper c) = ((acc <<< 4) % 2 ^ 32) ||| 0xFF) := by
  constructor
  · rw [char_array_to_u32_ok src d0 n h1 hlen]
    congr 3
    apply List.foldl_ext
    intro acc c hc
    exact char_array_to_u32_step_byte acc c (hsrc c (List.mem_of_mem_take hc))
  · intro acc c _ hc
    rw [toupper_not_hex c hc]

/-- C17 on `1G` and on `G1`, from `*dst = 0`: the character `G` ors `0xFF` in, giving
`0xFF` and `0xFF1`. -/
theorem char_array_to_u32_no_validation_witness :
    char_array_to_u32 (some 0) (some (ascii "1G")) 2 = some (true, some 0xFF) ∧
    char_array_to_u32 (some 0) (some (ascii "G1")) 2 = some (true, some 0xFF1) := by
  have h1 := (char_array_to_u32_no_validation (ascii "1G") 0 2 (by decide) (by decide)
    (by decide)).1
  have h2 := (char_array_to_u32_no_validation (ascii "G1") 0 2 (by decide) (by decide)
    (by decide)).1
  exact ⟨h1.trans (by decide), h2.trans (by decide)⟩

/-- On `k ≤ 8` hexadecimal digits `char_array_to_u32` appends the digits to the prior
value of `*dst`: the result is `(d0 * 16 ^ k + value) mod 2 ^ 32`. -/
theorem char_array_to_u32_hex_digits (src : List Nat) (d0 : Nat) (hne : src ≠ [])
    (hlen : src.length ≤ 8) (hsrc : ∀ c ∈ src, isHexDigit c) :
    char_array_to_u32 (some d0) (some src) src.length =
      some (true, some ((d0 * 16 ^ src.length + hexNumber src) % UINT32_MOD)) := by
  have hn : 1 ≤ src.length := by
    cases src with
    | nil => exact absurd rfl hne
    | cons a t => simp
  rw [char_array_to_u32_ok src d0 src.length hn (by omega),
    show min src.length 8 = src.length by omega, List.take_length]
  have h1 := foldl_step_hex src d0 hsrc
  have h2 := foldl_step_lt src d0 hsrc hne
  rw [Nat.mod_eq_of_lt h2] at h1
  rw [h1]

/-- C18 fails on the code: with `*dst = 1` before the call, `"1A"` and `src_len = 2`, the
call returns `true` and leaves `0x11A` in `*dst`, not the number `0x1A` the two digits
denote; `0x1A` is obtained only when `*dst` is 0 before the call.  The loop shifts the
prior content of `*dst` instead of starting from 0. -/
theorem char_array_to_u32_keeps_prior_value :
    char_array_to_u32 (some 1) (some (ascii "1A")) 2 = some (true, some 0x11A) ∧
    char_array_to_u32 (some 0) (some (ascii "1A")) 2 = some (true, some 0x1A) ∧
    hexNumber (ascii "1A") = 0x1A := by
  decide

/-! ### Null pointers and zero lengths -/

/-- The function `char_array_to_u32` returns `false` exactly when a pointer is null or the
length is zero, and then leaves `*dst` as it was. -/
theorem char_array_to_u32_fails_iff (dst : Option Nat) (src : Option (List Nat)) (n : Nat) :
    ((∃ d, char_array_to_u32 dst src n = some (false, d)) ↔
      (dst = none ∨ src = none ∨ n = 0)) ∧
    ((dst = none ∨ src = none ∨ n = 0) → char_array_to_u32 dst src n = some (false, dst)) := by
  have hfail : (dst = none ∨ src = none ∨ n = 0) →
      char_array_to_u32 dst src n = some (false, dst) := by
    intro h
    unfold char_array_to_u32
    rcases h with rfl | rfl | rfl
    · rfl
    · cases dst <;> rfl
    · cases dst <;> cases src <;> simp
  refine ⟨⟨?_, fun h => ⟨dst, hfail h⟩⟩, hfail⟩
  rintro ⟨d, hd⟩
  cases dst with
  | none => exact Or.inl rfl
  | some d0 =>
    cases src with
    | none => exact Or.inr (Or.inl rfl)
    | some s =>
      by_cases hn : n = 0
      · exact Or.inr (Or.inr hn)
      · exfalso
        unfold char_array_to_u32 at hd
        simp only [if_neg hn] at hd
        split at hd <;> simp at hd

/-- The function `byte_array_to_str` returns `false` exactly when a pointer is null or the
length is zero, and then leaves `str` as it was. -/
theorem byte_array_to_str_fails_iff (str byte_array : Option (List Nat)) (n : Nat) :
    ((∃ s, byte_array_to_str str byte_array n = some (false, s)) ↔
      (str = none ∨ byte_array = none ∨ n = 0)) ∧
    ((str = none ∨ byte_array = none ∨ n = 0) →
      byte_array_to_str str byte_array n = some (false, str)) := by
  have hfail : (str = none ∨ byte_array = none ∨ n = 0) →
      byte_array_to_str str byte_array n = some (false, str) := by
    intro h
    unfold byte_array_to_str
    rcases h with rfl | rfl | rfl
    · rfl
    · cases str <;> rfl
    · cases str <;> cases byte_array <;> simp
  refine ⟨⟨?_, fun h => ⟨str, hfail h⟩⟩, hfail⟩
  rintro ⟨d, hd⟩
  cases str with
  | none => exact Or.inl rfl
  | some s =>
    cases byte_array with
    | none => exact Or.inr (Or.inl rfl)
    | some b =>
      by_cases hn : n = 0
      · exact Or.inr (Or.inr hn)
      · exfalso
        unfold byte_array_to_str at hd
        simp only [if_neg hn] at hd
        split at hd
        · simp at hd
        · split at hd <;> simp at hd

/-- The function `str_to_byte_array` returns 0 when a pointer is null or the length is zero,
and then leaves `byte_array` as it was. -/
theorem str_to_byte_array_fails (byte_array str : Option (List Nat)) (n : Nat)
    (h : byte_array = none ∨ str = none ∨ n = 0) :
    str_to_byte_array byte_array str n = some (0, byte_array) := by
  unfold str_to_byte_array
  rcases h with rfl | rfl | rfl
  · rfl
  · cases byte_array <;> rfl
  · cases byte_array <;> cases str <;> simp

/-- C12: structural failure contract of the bulk functions.  `char_array_to_u32` and
`byte_array_to_str` return `false` if and only if a buffer is absent or the length is
zero, `str_to_byte_array` returns 0 whenever a buffer is absent or `str_len` is zero,
whatever the other arguments are, and in each of these failing calls the output (`*dst`,
`str`, `byte_array`) is left unchanged. -/
theorem bulk_functions_structural_failure :
    (∀ (dst : Option Nat) (src : Option (List Nat)) (src_len : Nat),
      ((∃ d, char_array_to_u32 dst src src_len = some (false, d)) ↔
        (dst = none ∨ src = none ∨ src_len = 0)) ∧
      ((dst = none ∨ src = none ∨ src_len = 0) →
        char_array_to_u32 dst src src_len = some (false, dst))) ∧
    (∀ (str byte_array : Option (List Nat)) (byte_array_len : Nat),
      ((∃ s, byte_array_to_str str byte_array byte_array_len = some (false, s)) ↔
        (str = none ∨ byte_array = none ∨ byte_array_len = 0)) ∧
      ((str = none ∨ byte_array = none ∨ byte_array_len = 0) →
        byte_array_to_str str byte_array byte_array_len = some (false, str))) ∧
    (∀ (byte_array str : Option (List Nat)) (str_len : Nat),
      (byte_array = none ∨ str = none ∨ str_len = 0) →
        str_to_byte_array byte_array str str_len = some (0, byte_array)) :=
  ⟨char_array_to_u32_fails_iff, byte_array_to_str_fails_iff, str_to_byte_array_fails⟩

/-! ### Binary coded decimal: the two directions -/

/-- C15: for every byte `bcd` (all 256 values, nibbles above 9 included), `bcd_to_dec bcd`
is exactly `high * 10 + low` with `high = bcd >> 4` and `low = bcd & 0x0F`, without any
8-bit wrap-around: the value is at most 165, reached at `0xFF`. -/
theorem bcd_to_dec_exact (bcd : Nat) (h : bcd < 256) :
    bcd_to_dec bcd = (bcd >>> 4) * 10 + (bcd &&& 0x0F) ∧
    bcd >>> 4 = bcd / 16 ∧ bcd &&& 0x0F = bcd % 16 ∧
    (bcd >>> 4) * 10 + (bcd &&& 0x0F) ≤ 165 ∧ bcd_to_dec 0xFF = 165 := by
  interval_cases bcd <;> decide

/-- C15 at `0x9F`, whose value is `9 * 10 + 15 = 105`, and at `0xFF`. -/
theorem bcd_to_dec_exact_witness :
    bcd_to_dec 0x9F = 105 ∧ bcd_to_dec 0xFF = 165 := by
  obtain ⟨h1, -, -, -, h5⟩ := bcd_to_dec_exact 0x9F (by decide)
  exact ⟨h1.trans (by decide), h5⟩

/-- C16: for every 8-bit `dec`, the low nibble of `dec_to_bcd dec` is `dec % 10` and its
high nibble is `(dec / 10) % 16`; for `dec` in 0..99 the high nibble is `dec / 10` and
both nibbles are decimal digits; above 99 the tens value is truncated modulo 16, so 255
gives `0x95`. -/
theorem dec_to_bcd_nibbles (dec : Nat) (h : dec < 256) :
    dec_to_bcd dec &&& 0x0F = dec % 10 ∧
    dec_to_bcd dec >>> 4 = (dec / 10) % 16 ∧
    dec_to_bcd dec = 16 * ((dec / 10) % 16) + dec % 10 ∧
    (dec ≤ 99 → dec_to_bcd dec >>> 4 = dec / 10 ∧ dec / 10 ≤ 9 ∧ dec % 10 ≤ 9) ∧
    dec_to_bcd 255 = 0x95 := by
  interval_cases dec <;> decide

/-- C16 at 255: low nibble 5, high nibble `25 % 16 = 9`. -/
theorem dec_to_bcd_nibbles_witness :
    dec_to_bcd 255 &&& 0x0F = 5 ∧ dec_to_bcd 255 >>> 4 = 9 ∧ dec_to_bcd 255 = 0x95 := by
  obtain ⟨h1, h2, -, -, h5⟩ := dec_to_bcd_nibbles 255 (by decide)
  exact ⟨h1, h2, h5⟩

/-! ### String to byte array: separators, bounds -/

/-- The loop of `str_to_byte_array` has no result when no iteration is left and the
index is still below `str_len`. -/
theorem str_to_byte_array_loop_no_fuel (str : List Nat) (str_len i len : Nat)
    (out : List Nat) (h : i < str_len) :
    str_to_byte_array_loop str str_len 0 i len out = none := by
  simp [str_to_byte_array_loop, h]

/-- The loop of `str_to_byte_array` over a run of `k` separators: it takes `k` iterations
and moves the index on by `k`. -/
theorem str_to_byte_array_loop_skip_run (str : List Nat) (str_len k : Nat)
    (hM : str_len < UINT32_MOD) :
    ∀ fuel i len out, i + k ≤ str_len →
      (∀ j, i ≤ j → j < i + k → ∃ c, str[j]? = some c ∧ isSeparator c) →
      str_to_byte_array_loop str str_len fuel i len out =
        if fuel < k then none
        else str_to_byte_array_loop str str_len (fuel - k) (i + k) len out := by
  induction k with
  | zero => intro fuel i len out _ _; simp
  | succ k ih =>
    intro fuel i len out hi hsep
    obtain ⟨c, hc, hcs⟩ := hsep i (le_refl i) (by omega)
    cases fuel with
    | zero =>
      rw [str_to_byte_array_loop_no_fuel _ _ _ _ _ (by omega), if_pos (by omega)]
    | succ fuel =>
      have hm : (i + 1) % UINT32_MOD = i + 1 := by unfold UINT32_MOD at *; omega
      rw [str_to_byte_array_loop_skip _ _ _ _ _ _ c (by omega) hc hcs, hm,
        ih fuel (i + 1) len out (by omega) (fun j h1 h2 => hsep j (by omega) (by omega))]
      have e1 : fuel + 1 - (k + 1) = fuel - k := by omega
      have e2 : i + 1 + k = i + (k + 1) := by omega
      rw [e1, e2]
      by_cases hf : fuel < k
      · rw [if_pos hf, if_pos (by omega)]
      · rw [if_neg hf, if_neg (by omega)]

/-- A spaced text holds at least two characters for each pair. -/
theorem spacedText_length_le (items : List (List Nat × Nat × Nat)) (trail : List Nat) :
    2 * items.length ≤ (spacedText items trail).length := by
  induction items with
  | nil => simp
  | cons it rest ih =>
    obtain ⟨seps, c, c1⟩ := it
    simp only [spacedText, List.length_append, List.length_cons]
    omega

/-- The loop of `str_to_byte_array` over a spaced text whose runs are made of separators
and whose pairs start with a character that is not a separator: it stores one byte for
each pair and exits at the end of the text. -/
theorem str_to_byte_array_loop_spacedText (items : List (List Nat × Nat × Nat))
    (trail tail : List Nat)
    (hitems : ∀ it ∈ items, (∀ s ∈ it.1, isSeparator s) ∧ ¬ isSeparator it.2.1)
    (htrail : ∀ s ∈ trail, isSeparator s) (str_len : Nat) (hM : str_len < UINT32_MOD) :
    ∀ (pre done free : List Nat) (fuel : Nat),
      str_len = pre.length + (spacedText items trail).length →
      (spacedText items trail).length ≤ fuel →
      items.length ≤ free.length →
      done.length + items.length < UINT32_MOD →
      str_to_byte_array_loop (pre ++ spacedText items trail ++ tail) str_len fuel pre.length
          done.length (done ++ free) =
        some (done.length + items.length,
          done ++ items.map (fun it => str_to_byte_array_byte it.2.1 it.2.2) ++
            free.drop items.length) := by
  induction items with
  | nil =>
    intro pre done free fuel hL hfuel _ _
    simp only [spacedText] at hL hfuel ⊢
    rw [str_to_byte_array_loop_skip_run _ _ trail.length hM fuel pre.length _ _ (by omega)
      (fun j h1 h2 => by
        refine ⟨trail[j - pre.length], ?_, htrail _ (List.getElem_mem _)⟩
        rw [List.append_assoc, List.getElem?_append_right h1,
          List.getElem?_append_left (by omega), List.getElem?_eq_getElem]),
      if_neg (by omega), str_to_byte_array_loop_exit _ _ _ _ _ _ (by omega)]
    simp
  | cons it rest ih =>
    intro pre done free fuel hL hfuel hfree hdone
    obtain ⟨seps, c, c1⟩ := it
    have hit := hitems (seps, c, c1) (by simp)
    have hlen2 := spacedText_length_le rest trail
    simp only [spacedText, List.length_append, List.length_cons] at hL hfuel hfree hdone
    obtain ⟨x, free1, rfl⟩ : ∃ x free1, free = x :: free1 := by
      cases free with
      | nil => simp at hfree
      | cons x t => exact ⟨x, t, rfl⟩
    have hstr : pre ++ spacedText ((seps, c, c1) :: rest) trail ++ tail =
        (pre ++ seps) ++ c :: c1 :: (spacedText rest trail ++ tail) := by
      simp [spacedText]
    have hstr2 : pre ++ spacedText ((seps, c, c1) :: rest) trail ++ tail =
        (pre ++ seps ++ [c, c1]) ++ spacedText rest trail ++ tail := by
      simp [spacedText]
    have hsepread : ∀ j, pre.length ≤ j → j < pre.length + seps.length →
        ∃ s, (pre ++ spacedText ((seps, c, c1) :: rest) trail ++ tail)[j]? = some s ∧
          isSeparator s := by
      intro j h1 h2
      refine ⟨seps[j - pre.length], ?_, hit.1 _ (List.getElem_mem _)⟩
      rw [hstr, List.append_assoc, List.getElem?_append_right h1,
        List.getElem?_append_left (by omega), List.getElem?_eq_getElem]
    have hc : (pre ++ spacedText ((seps, c, c1) :: rest) trail ++ tail)[pre.length +
        seps.length]? = some c := by
      rw [hstr, List.getElem?_append_right (by simp)]
      simp
    have hc1 : (pre ++ spacedText ((seps, c, c1) :: rest) trail ++ tail)[(pre.length +
        seps.length + 1) % UINT32_MOD]? = some c1 := by
      have hm : (pre.length + seps.length + 1) % UINT32_MOD = pre.length + seps.length + 1 := by
        unfold UINT32_MOD at *; omega
      rw [hm, hstr, List.getElem?_append_right (by simp)]
      simp
    obtain ⟨f, hf⟩ : ∃ f, fuel - seps.length = f + 1 := ⟨fuel - seps.length - 1, by omega⟩
    have hm2 : (pre.length + seps.length + 2) % UINT32_MOD =
        (pre ++ seps ++ [c, c1]).length := by
      simp only [List.length_append, List.length_cons, List.length_nil]
      unfold UINT32_MOD at *; omega
    have hm3 : (done.length + 1) % UINT32_MOD = (done ++ [str_to_byte_array_byte c c1]).length := by
      simp only [List.length_append, List.length_cons, List.length_nil]
      unfold UINT32_MOD at *; omega
    have hset : (done ++ x :: free1).set done.length (str_to_byte_array_byte c c1) =
        (done ++ [str_to_byte_array_byte c c1]) ++ free1 := by
      simp
    rw [str_to_byte_array_loop_skip_run _ _ seps.length hM fuel pre.length _ _ (by omega)
      hsepread, if_neg (by omega), hf,
      str_to_byte_array_loop_pair _ _ _ _ _ _ c c1 (by omega) hc hit.2 hc1
        (by rw [List.length_append, List.length_cons]; omega), hm2, hm3]
    have key := ih (fun it h => hitems it (by simp [h])) (pre ++ seps ++ [c, c1])
      (done ++ [str_to_byte_array_byte c c1]) free1 f
      (by simp only [List.length_append, List.length_cons, List.length_nil]; omega)
      (by omega) (by simpa using hfree)
      (by simp only [List.length_append, List.length_cons, List.length_nil]; omega)
    rw [← hstr2] at key
    change str_to_byte_array_loop _ _ f _ _
      ((done ++ x :: free1).set done.length (str_to_byte_array_byte c c1)) = _
    rw [hset, key]
    simp only [List.length_append, List.length_cons, List.length_nil, List.map_cons,
      List.drop_succ_cons, List.append_assoc, List.cons_append, List.nil_append]
    congr 2
    omega


/-- On a hexadecimal digit the decoder computes the value of the digit, which is below 16;
such a digit is not a separator. -/
theorem str_to_byte_array_nibble_hex (c : Nat) (hc : isHexDigit c) :
    str_to_byte_array_nibble c = hexDigitValue c ∧ hexDigitValue c < 16 ∧ ¬ isSeparator c := by
  unfold isHexDigit at hc
  unfold str_to_byte_array_nibble toupper hexDigitValue isSeparator UINT8_MOD
  refine ⟨?_, ?_, ?_⟩
  · simp only
    split_ifs <;> omega
  · split_ifs <;> omega
  · omega

/-- The byte stored for two hexadecimal digits is the number they denote. -/
theorem str_to_byte_array_byte_hex (h l : Nat) (hh : isHexDigit h) (hl : isHexDigit l) :
    str_to_byte_array_byte h l = 16 * hexDigitValue h + hexDigitValue l := by
  obtain ⟨h1, h2, -⟩ := str_to_byte_array_nibble_hex h hh
  obtain ⟨l1, l2, -⟩ := str_to_byte_array_nibble_hex l hl
  unfold str_to_byte_array_byte UINT8_MOD
  rw [h1, l1, Nat.shiftLeft_eq, or_of_disjoint _ _ 4 (by omega)]
  omega

/-- The function `str_to_byte_array` on a spaced text, with `str_len` the length of the
text: the count is the number of pairs and one byte is stored for each pair. -/
theorem str_to_byte_array_spacedText (items : List (List Nat × Nat × Nat))
    (trail tail out : List Nat)
    (hitems : ∀ it ∈ items, (∀ s ∈ it.1, isSeparator s) ∧ ¬ isSeparator it.2.1)
    (htrail : ∀ s ∈ trail, isSeparator s)
    (hM : (spacedText items trail).length < UINT32_MOD) (hout : items.length ≤ out.length) :
    str_to_byte_array (some out) (some (spacedText items trail ++ tail))
        (spacedText items trail).length =
      some (items.length,
        some (items.map (fun it => str_to_byte_array_byte it.2.1 it.2.2) ++
          out.drop items.length)) := by
  have hlen := spacedText_length_le items trail
  by_cases h0 : (spacedText items trail).length = 0
  · have hi : items = [] := by
      cases items with
      | nil => rfl
      | cons a t => simp at hlen; omega
    subst hi
    unfold str_to_byte_array
    simp [h0]
  · have key := str_to_byte_array_loop_spacedText items trail tail hitems htrail _ hM [] [] out
      (spacedText items trail).length (by simp) (le_refl _) hout
      (by simp only [List.length_nil]; unfold UINT32_MOD at *; omega)
    simp only [List.nil_append, List.length_nil, Nat.zero_add] at key
    unfold str_to_byte_array
    simp only [if_neg h0, key]

/-- C13: separator tolerance of `str_to_byte_array`.  When `str` is made of `n` pairs of
hexadecimal digits (of either case) with any number, possibly zero, of space or NUL
characters before, between and after the pairs, never inside a pair, and `str_len` is
the total length, `str_to_byte_array` returns `n` and stores the `n` bytes the pairs
denote, in order. -/
theorem str_to_byte_array_separator_tolerance (items : List (List Nat × Nat × Nat))
    (trail tail out : List Nat)
    (hitems : ∀ it ∈ items,
      (∀ s ∈ it.1, isSeparator s) ∧ isHexDigit it.2.1 ∧ isHexDigit it.2.2)
    (htrail : ∀ s ∈ trail, isSeparator s)
    (hM : (spacedText items trail).length < UINT32_MOD) (hout : items.length ≤ out.length) :
    str_to_byte_array (some out) (some (spacedText items trail ++ tail))
        (spacedText items trail).length =
      some (items.length,
        some (items.map (fun it => 16 * hexDigitValue it.2.1 + hexDigitValue it.2.2) ++
          out.drop items.length)) := by
  rw [str_to_byte_array_spacedText items trail tail out
    (fun it h => ⟨(hitems it h).1, (str_to_byte_array_nibble_hex _ (hitems it h).2.1).2.2⟩)
    htrail hM hout]
  have hmap : items.map (fun it => str_to_byte_array_byte it.2.1 it.2.2) =
      items.map (fun it => 16 * hexDigitValue it.2.1 + hexDigitValue it.2.2) :=
    List.map_congr_left
      (fun it h => str_to_byte_array_byte_hex _ _ (hitems it h).2.1 (hitems it h).2.2)
  rw [hmap]

/-- C13 on `01  AB` (two spaces) with `str_len = 6`: the bytes are `01 AB`, the count
is 2. -/
theorem str_to_byte_array_separator_tolerance_witness :
    spacedText [([], 0x30, 0x31), ([0x20, 0x20], 0x41, 0x42)] [] = ascii "01  AB" ∧
    str_to_byte_array (some [0, 0]) (some (ascii "01  AB")) 6 = some (2, some [0x01, 0xAB]) := by
  have h := str_to_byte_array_separator_tolerance [([], 0x30, 0x31), ([0x20, 0x20], 0x41, 0x42)]
    [] [] [0, 0] (by decide) (by decide) (by decide) (by decide)
  exact ⟨by decide, h⟩

/-- Removing the separators from a spaced text whose pairs hold no separator leaves the
pairs. -/
theorem filter_spacedText (items : List (List Nat × Nat × Nat)) (trail : List Nat)
    (hitems : ∀ it ∈ items,
      (∀ s ∈ it.1, isSeparator s) ∧ ¬ isSeparator it.2.1 ∧ ¬ isSeparator it.2.2)
    (htrail : ∀ s ∈ trail, isSeparator s) :
    (spacedText items trail).filter (fun c => decide (¬ isSeparator c)) =
      spacedText (items.map (fun it => ([], it.2.1, it.2.2))) [] := by
  induction items with
  | nil =>
    simp only [spacedText, List.map_nil, List.filter_eq_nil_iff]
    intro s hs
    simpa using htrail s hs
  | cons it rest ih =>
    obtain ⟨seps, c, c1⟩ := it
    obtain ⟨h1, h2, h3⟩ := hitems (seps, c, c1) (by simp)
    have hs : seps.filter (fun c => decide (¬ isSeparator c)) = [] := by
      rw [List.filter_eq_nil_iff]
      intro s hs
      simpa using h1 s hs
    simp only [spacedText, List.map_cons, List.filter_append, hs, List.nil_append]
    rw [List.filter_cons_of_pos (by simpa using h2), List.filter_cons_of_pos (by simpa using h3),
      ih (fun it h => hitems it (by simp [h]))]

/-- C19, amended: spaces and NUL characters are skipped where they occur before, between
and after two-character pairs.  For every `str` made of pairs of characters that are
not separators, with any number of spaces and NULs around the pairs, and `str_len` its
length, the returned count and the decoded bytes are those obtained by decoding the
string with every space and NUL removed: one byte for each pair. -/
theorem str_to_byte_array_separators_removed (items : List (List Nat × Nat × Nat))
    (trail out : List Nat)
    (hitems : ∀ it ∈ items,
      (∀ s ∈ it.1, isSeparator s) ∧ ¬ isSeparator it.2.1 ∧ ¬ isSeparator it.2.2)
    (htrail : ∀ s ∈ trail, isSeparator s)
    (hM : (spacedText items trail).length < UINT32_MOD) (hout : items.length ≤ out.length) :
    str_to_byte_array (some out) (some (spacedText items trail))
        (spacedText items trail).length =
      str_to_byte_array (some out)
        (some ((spacedText items trail).filter (fun c => decide (¬ isSeparator c))))
        ((spacedText items trail).filter (fun c => decide (¬ isSeparator c))).length ∧
    str_to_byte_array (some out) (some (spacedText items trail))
        (spacedText items trail).length =
      some (items.length,
        some (items.map (fun it => str_to_byte_array_byte it.2.1 it.2.2) ++
          out.drop items.length)) := by
  have h1 := str_to_byte_array_spacedText items trail [] out
    (fun it h => ⟨(hitems it h).1, (hitems it h).2.1⟩) htrail hM hout
  rw [List.append_nil] at h1
  have hle : ((spacedText items trail).filter (fun c => decide (¬ isSeparator c))).length ≤
      (spacedText items trail).length := List.length_filter_le _ _
  rw [filter_spacedText items trail hitems htrail] at hle ⊢
  have h2 := str_to_byte_array_spacedText (items.map (fun it => ([], it.2.1, it.2.2))) [] []
    out (by
      intro it h
      obtain ⟨it0, h0, rfl⟩ := List.mem_map.1 h
      exact ⟨by simp, (hitems it0 h0).2.1⟩) (by simp) (by omega) (by simpa using hout)
  rw [List.append_nil] at h2
  rw [h1, h2]
  simp [List.map_map, Function.comp]

/-- C19 (amended) on `01  AB`: the same result as on `01AB`. -/
theorem str_to_byte_array_separators_removed_witness :
    str_to_byte_array (some [0, 0]) (some (ascii "01  AB")) 6 =
      str_to_byte_array (some [0, 0]) (some (ascii "01AB")) 4 ∧
    str_to_byte_array (some [0, 0]) (some (ascii "01  AB")) 6 = some (2, some [0x01, 0xAB]) := by
  have h := str_to_byte_array_separators_removed [([], 0x30, 0x31), ([0x20, 0x20], 0x41, 0x42)]
    [] [0, 0] (by decide) (by decide) (by decide) (by decide)
  exact ⟨h.1, h.2.trans (by decide)⟩

/-- C19, as stated, fails on its own example: `"0 1"` with `str_len = 3` (followed by its
terminator) decodes to the two bytes `F0 D0`, the space and the terminator being taken
as low nibbles, while `"01"`, the same string without the space, decodes to the single
byte `01`. -/
theorem str_to_byte_array_separator_inside_pair :
    (ascii "0 1").filter (fun c => decide (¬ isSeparator c)) = ascii "01" ∧
    str_to_byte_array (some [0, 0]) (some (ascii "0 1" ++ [0x00])) 3 =
      some (2, some [0xF0, 0xD0]) ∧
    str_to_byte_array (some [0, 0]) (some (ascii "01" ++ [0x00])) 2 =
      some (1, some [0x01, 0]) ∧
    str_to_byte_array (some [0, 0]) (some (ascii "0 1" ++ [0x00])) 3 ≠
      str_to_byte_array (some [0, 0]) (some (ascii "01" ++ [0x00])) 2 := by
  decide


/-- The loop of `str_to_byte_array` has no result when the character at the index lies
outside the buffer. -/
theorem str_to_byte_array_loop_read_none (str : List Nat) (str_len fuel i len : Nat)
    (out : List Nat) (h : i < str_len) (hc : str[i]? = none) :
    str_to_byte_array_loop str str_len fuel i len out = none := by
  cases fuel with
  | zero => exact str_to_byte_array_loop_no_fuel _ _ _ _ _ h
  | succ fuel =>
    rw [str_to_byte_array_loop, if_pos h]
    simp only [hc]

/-- The loop of `str_to_byte_array` has no result when the second character of a pair
lies outside the buffer. -/
theorem str_to_byte_array_loop_low_none (str : List Nat) (str_len fuel i len : Nat)
    (out : List Nat) (c : Nat) (h : i < str_len) (hc : str[i]? = some c)
    (hsep : ¬ isSeparator c) (hc1 : str[(i + 1) % UINT32_MOD]? = none) :
    str_to_byte_array_loop str str_len fuel i len out = none := by
  cases fuel with
  | zero => exact str_to_byte_array_loop_no_fuel _ _ _ _ _ h
  | succ fuel =>
    rw [str_to_byte_array_loop, if_pos h]
    unfold isSeparator at hsep
    simp only [hc, if_neg hsep, hc1]

/-- The loop of `str_to_byte_array` has no result when the byte of a pair would be stored
outside the output buffer. -/
theorem str_to_byte_array_loop_store_none (str : List Nat) (str_len fuel i len : Nat)
    (out : List Nat) (c c1 : Nat) (h : i < str_len) (hc : str[i]? = some c)
    (hsep : ¬ isSeparator c) (hc1 : str[(i + 1) % UINT32_MOD]? = some c1)
    (hlen : ¬ len < out.length) :
    str_to_byte_array_loop str str_len fuel i len out = none := by
  cases fuel with
  | zero => exact str_to_byte_array_loop_no_fuel _ _ _ _ _ h
  | succ fuel =>
    rw [str_to_byte_array_loop, if_pos h]
    unfold isSeparator at hsep
    simp only [hc, if_neg hsep, hc1, if_neg hlen]

/-- The loop of `str_to_byte_array`, for `str_len ≤ 2 ^ 32 - 2`, with enough iterations
left and room for `(str_len + 1 - i) / 2` more bytes: it has a result when the buffer
`str` holds `str_len + 1` characters, and every result has a count of at most
`len + (str_len + 1 - i) / 2` and differs from the output buffer only at the indices from
`len` to the count. -/
theorem str_to_byte_array_loop_bound (str : List Nat) (str_len : Nat)
    (hL : str_len + 1 < UINT32_MOD) :
    ∀ fuel i len out, i ≤ str_len + 1 → str_len ≤ fuel + i →
      len + (str_len + 1 - i) / 2 ≤ out.length →
      len + (str_len + 1 - i) / 2 < UINT32_MOD →
      (str_len + 1 ≤ str.length →
        ∃ r, str_to_byte_array_loop str str_len fuel i len out = some r) ∧
      (∀ count out1, str_to_byte_array_loop str str_len fuel i len out = some (count, out1) →
        len ≤ count ∧ count ≤ len + (str_len + 1 - i) / 2 ∧ out1.length = out.length ∧
        ∀ j, (j < len ∨ count ≤ j) → out1[j]? = out[j]?) := by
  intro fuel
  induction fuel with
  | zero =>
    intro i len out hi hfuel _ _
    rw [str_to_byte_array_loop_exit _ _ _ _ _ _ (by omega)]
    refine ⟨fun _ => ⟨_, rfl⟩, ?_⟩
    intro count out1 h
    simp only [Option.some.injEq, Prod.mk.injEq] at h
    obtain ⟨rfl, rfl⟩ := h
    exact ⟨le_refl _, by omega, rfl, fun _ _ => rfl⟩
  | succ fuel ih =>
    intro i len out hi hfuel hout hlenM
    by_cases hlt : i < str_len
    · cases hc : str[i]? with
      | none =>
        rw [str_to_byte_array_loop_read_none _ _ _ _ _ _ hlt hc]
        refine ⟨fun hs => ?_, fun _ _ h => by simp at h⟩
        rw [List.getElem?_eq_none_iff] at hc
        omega
      | some c =>
        by_cases hsep : isSeparator c
        · have hm : (i + 1) % UINT32_MOD = i + 1 := by unfold UINT32_MOD at *; omega
          rw [str_to_byte_array_loop_skip _ _ _ _ _ _ c hlt hc hsep, hm]
          obtain ⟨h1, h2⟩ := ih (i + 1) len out (by omega) (by omega) (by omega) (by omega)
          refine ⟨h1, ?_⟩
          intro count out1 h
          obtain ⟨g1, g2, g3, g4⟩ := h2 count out1 h
          exact ⟨g1, by omega, g3, g4⟩
        · cases hc1 : str[(i + 1) % UINT32_MOD]? with
          | none =>
            rw [str_to_byte_array_loop_low_none _ _ _ _ _ _ c hlt hc hsep hc1]
            refine ⟨fun hs => ?_, fun _ _ h => by simp at h⟩
            have hm : (i + 1) % UINT32_MOD = i + 1 := by unfold UINT32_MOD at *; omega
            rw [hm, List.getElem?_eq_none_iff] at hc1
            omega
          | some c1 =>
            have hm2 : (i + 2) % UINT32_MOD = i + 2 := by unfold UINT32_MOD at *; omega
            have hm3 : (len + 1) % UINT32_MOD = len + 1 := by unfold UINT32_MOD at *; omega
            have hlen : len < out.length := by omega
            rw [str_to_byte_array_loop_pair _ _ _ _ _ _ c c1 hlt hc hsep hc1 hlen, hm2, hm3]
            obtain ⟨h1, h2⟩ := ih (i + 2) (len + 1)
              (out.set len
                (((str_to_byte_array_nibble c <<< 4) ||| str_to_byte_array_nibble c1) %
                  UINT8_MOD))
              (by omega) (by omega) (by rw [List.length_set]; omega) (by omega)
            refine ⟨h1, ?_⟩
            intro count out1 h
            obtain ⟨g1, g2, g3, g4⟩ := h2 count out1 h
            rw [List.length_set] at g3
            refine ⟨by omega, by omega, g3, ?_⟩
            intro j hj
            rw [g4 j (by omega), List.getElem?_set_ne (by omega)]
    · rw [str_to_byte_array_loop_exit _ _ _ _ _ _ hlt]
      refine ⟨fun _ => ⟨_, rfl⟩, ?_⟩
      intro count out1 h
      simp only [Option.some.injEq, Prod.mk.injEq] at h
      obtain ⟨rfl, rfl⟩ := h
      exact ⟨le_refl _, by omega, rfl, fun _ _ => rfl⟩


/-- The result of `str_to_byte_array` when its loop has a result. -/
theorem str_to_byte_array_of_loop (str out : List Nat) (str_len : Nat) (h0 : str_len ≠ 0)
    (len : Nat) (buf : List Nat)
    (h : str_to_byte_array_loop str str_len str_len 0 0 out = some (len, buf)) :
    str_to_byte_array (some out) (some str) str_len = some (len, some buf) := by
  unfold str_to_byte_array
  simp only [if_neg h0, h]

/-- The function `str_to_byte_array` has no result when its loop has none. -/
theorem str_to_byte_array_of_loop_none (str out : List Nat) (str_len : Nat)
    (h0 : str_len ≠ 0) (h : str_to_byte_array_loop str str_len str_len 0 0 out = none) :
    str_to_byte_array (some out) (some str) str_len = none := by
  unfold str_to_byte_array
  simp only [if_neg h0, h]

/-- The output bound of `str_to_byte_array` where the index of its loop cannot wrap
around: for every `str`, every `str_len ≤ 4294967294` and an output buffer of
`(str_len + 1) / 2` bytes.  The call
returns when the `str_len + 1` characters `str[0..str_len]` can be read; whenever it
returns, the count is at most `(str_len + 1) / 2`, which is `ceil (str_len / 2)`, and the
output buffer is changed at indices below the count only; and the count is 0, with the
output buffer unchanged, when every character in range is a space or NUL. -/
theorem str_to_byte_array_output_bound (str out : List Nat) (str_len : Nat)
    (hL : str_len ≤ 4294967294) (hout : (str_len + 1) / 2 ≤ out.length) :
    (str_len + 1 ≤ str.length →
      ∃ count out1, str_to_byte_array (some out) (some str) str_len =
        some (count, some out1)) ∧
    (∀ count out1, str_to_byte_array (some out) (some str) str_len = some (count, out1) →
      count ≤ (str_len + 1) / 2 ∧
      ∃ buf, out1 = some buf ∧ buf.length = out.length ∧ ∀ j, count ≤ j → buf[j]? = out[j]?) ∧
    (str_len ≤ str.length → (∀ c ∈ str.take str_len, isSeparator c) →
      str_to_byte_array (some out) (some str) str_len = some (0, some out)) := by
  have hM : str_len + 1 < UINT32_MOD := by unfold UINT32_MOD; omega
  by_cases h0 : str_len = 0
  · subst h0
    have e : str_to_byte_array (some out) (some str) 0 = some (0, some out) := by
      unfold str_to_byte_array; simp
    rw [e]
    refine ⟨fun _ => ⟨0, out, rfl⟩, ?_, fun _ _ => rfl⟩
    intro count out1 h
    simp only [Option.some.injEq, Prod.mk.injEq] at h
    obtain ⟨rfl, rfl⟩ := h
    exact ⟨by omega, out, rfl, rfl, fun _ _ => rfl⟩
  · obtain ⟨h1, h2⟩ := str_to_byte_array_loop_bound str str_len hM str_len 0 0 out (by omega)
      (by omega) (by simpa using hout) (by unfold UINT32_MOD at *; omega)
    refine ⟨?_, ?_, ?_⟩
    · intro hs
      obtain ⟨⟨count, out1⟩, hr⟩ := h1 hs
      exact ⟨count, out1, str_to_byte_array_of_loop _ _ _ h0 _ _ hr⟩
    · intro count out1 h
      cases hr : str_to_byte_array_loop str str_len str_len 0 0 out with
      | none =>
        rw [str_to_byte_array_of_loop_none _ _ _ h0 hr] at h
        simp at h
      | some r =>
        obtain ⟨cnt, buf⟩ := r
        rw [str_to_byte_array_of_loop _ _ _ h0 _ _ hr] at h
        simp only [Option.some.injEq, Prod.mk.injEq] at h
        obtain ⟨rfl, rfl⟩ := h
        obtain ⟨-, g2, g3, g4⟩ := h2 cnt buf hr
        exact ⟨by simpa using g2, buf, rfl, g3, fun j hj => g4 j (Or.inr hj)⟩
    · intro hs hsep
      have hrun := str_to_byte_array_loop_skip_run str str_len str_len (by omega) str_len 0 0
        out (by omega) (fun j _ hj => by
          have hj2 : j < str.length := by omega
          refine ⟨str[j], List.getElem?_eq_getElem hj2, hsep _ ?_⟩
          rw [List.mem_take_iff_getElem]
          exact ⟨j, by omega, rfl⟩)
      rw [if_neg (by omega), str_to_byte_array_loop_exit _ _ _ (0 + str_len) _ _ (by omega)]
        at hrun
      exact str_to_byte_array_of_loop _ _ _ h0 _ _ hrun

/-- The output bound on `123` followed by its terminator, `str_len = 3`: the call
returns 2, which is `(3 + 1) / 2`. -/
theorem str_to_byte_array_output_bound_witness :
    (∃ count out1, str_to_byte_array (some [0, 0]) (some (ascii "123" ++ [0x00])) 3 =
      some (count, some out1)) ∧
    str_to_byte_array (some [0, 0]) (some (ascii "123" ++ [0x00])) 3 =
      some (2, some [0x12, 0xF0]) := by
  have h := str_to_byte_array_output_bound (ascii "123" ++ [0x00]) [0, 0] 3 (by decide)
    (by decide)
  exact ⟨h.1 (by decide), by decide⟩

/-- When `str_len` is `2 ^ 32 - 1` and the last character in range starts a pair, the
index wraps around to 0 after that pair, and the loop has no result however many
iterations it is given. -/
theorem str_to_byte_array_loop_wraps (n str_len c c1 : Nat) (hL : str_len = n + 1)
    (hn : n + 2 = UINT32_MOD) (hc : ¬ isSeparator c) :
    ∀ fuel len out,
      str_to_byte_array_loop (List.replicate n 0x20 ++ [c, c1]) str_len fuel 0 len out =
        none := by
  subst hL
  have hM : n + 1 < UINT32_MOD := by omega
  have hsep : ∀ j, 0 ≤ j → j < 0 + n →
      ∃ s, (List.replicate n 0x20 ++ [c, c1])[j]? = some s ∧ isSeparator s := by
    intro j _ hj
    refine ⟨0x20, ?_, Or.inl rfl⟩
    rw [List.getElem?_append_left (by rw [List.length_replicate]; omega),
      List.getElem?_replicate, if_pos (by omega)]
  have hc0 : (List.replicate n 0x20 ++ [c, c1])[0 + n]? = some c := by
    rw [List.getElem?_append_right (by rw [List.length_replicate]; omega),
      List.length_replicate]
    simp
  have hc1 : (List.replicate n 0x20 ++ [c, c1])[(0 + n + 1) % UINT32_MOD]? = some c1 := by
    rw [Nat.mod_eq_of_lt (by omega),
      List.getElem?_append_right (by rw [List.length_replicate]; omega),
      List.length_replicate]
    simp
  intro fuel
  induction fuel using Nat.strong_induction_on with
  | _ fuel ih =>
    intro len out
    rw [str_to_byte_array_loop_skip_run _ _ n hM fuel 0 len out (by omega) hsep]
    by_cases hf : fuel < n
    · rw [if_pos hf]
    · rw [if_neg hf]
      cases hf1 : fuel - n with
      | zero => exact str_to_byte_array_loop_no_fuel _ _ _ _ _ (by omega)
      | succ f =>
        by_cases hlen : len < out.length
        · rw [str_to_byte_array_loop_pair _ _ _ _ _ _ c c1 (by omega) hc0 hc hc1 hlen]
          have hw : (0 + n + 2) % UINT32_MOD = 0 := by
            rw [Nat.zero_add, hn, Nat.mod_self]
          rw [hw]
          exact ih f (by omega) _ _
        · exact str_to_byte_array_loop_store_none _ _ _ _ _ _ c c1 (by omega) hc0 hc hc1 hlen

/-- C20 fails on the code for `str_len = 4294967295`: on 4294967294 spaces followed by
`00`, with an output buffer of `2 ^ 31 = (str_len + 1) / 2` bytes, the index of the loop
is 4294967294 at the pair, whose second character `str[str_len]` is read without a guard
(the defect of C14); `i += 2` then wraps the index around to 0 and the loop starts over,
storing one more byte each time round: the call has no result, and the loop has none
however many iterations it is given, so no output buffer is large enough. -/
theorem str_to_byte_array_index_wraps :
    str_to_byte_array (some (List.replicate 2147483648 0x00))
      (some (List.replicate 4294967294 0x20 ++ [0x30, 0x30])) 4294967295 = none ∧
    ¬ ∃ fuel r, str_to_byte_array_loop (List.replicate 4294967294 0x20 ++ [0x30, 0x30])
      4294967295 fuel 0 0 (List.replicate 2147483648 0x00) = some r := by
  have h := str_to_byte_array_loop_wraps 4294967294 4294967295 0x30 0x30 (by decide)
    (by decide) (by decide)
  constructor
  · exact str_to_byte_array_of_loop_none _ _ _ (by decide) (h _ _ _)
  · rintro ⟨fuel, r, hr⟩
    rw [h] at hr
    exact absurd hr (by simp)

/-- C14 fails on the code: on `"1"` with `str_len = 1` the function reads `str[1]`.  With a
buffer of exactly one character the read is out of range and the call has no result;
with a second character in the buffer, at index 1, that character is decoded as the low
nibble, so `12` and `13` give different bytes for the same `str_len = 1`. -/
theorem str_to_byte_array_reads_past_str_len :
    str_to_byte_array (some [0x00]) (some (ascii "1")) 1 = none ∧
    str_to_byte_array (some [0x00]) (some (ascii "12")) 1 = some (1, some [0x12]) ∧
    str_to_byte_array (some [0x00]) (some (ascii "13")) 1 = some (1, some [0x13]) := by
  decide

/-! ### The round trip beyond `2 ^ 32` characters -/

/-- The characters of a buffer after a store of one character. -/
theorem writeAt_single_getElem (buf out : List Nat) (off v : Nat)
    (h : writeAt buf off [v] = some out) (j : Nat) :
    out[j]? = if j = off then some v else buf[j]? := by
  unfold writeAt at h
  split_ifs at h with hle
  simp only [List.length_cons, List.length_nil] at hle
  cases h
  have hset : buf.take off ++ [v] ++ buf.drop (off + [v].length) = buf.set off v := by
    rw [List.set_eq_take_append_cons_drop, if_pos (by omega)]
    simp
  rw [hset, List.getElem?_set]
  by_cases hj : j = off
  · subst hj
    simp [show j < buf.length by omega]
  · rw [if_neg (fun h => hj h.symm), if_neg hj]

/-- The function `byte_array_to_str` on 1431655766 bytes: the offsets `3 * i` of the
bytes are 32-bit values, but the offset `3 * 1431655766` of the terminator wraps around
to 2, so the call returns `true` with the text of the bytes in the buffer, except that
the character at index 2 is NUL. -/
theorem byte_array_to_str_wrapped (b str : List Nat) (hbytes : ∀ x ∈ b, x < 256)
    (hlen : b.length = 1431655766) (hs : 3 * b.length + 1 ≤ str.length) :
    ∃ s, byte_array_to_str (some str) (some b) b.length = some (true, some s) ∧
      ∀ j, j < 3 * b.length → s[j]? = if j = 2 then some 0x00 else (hexText b)[j]? := by
  obtain ⟨z, hz⟩ := byte_array_to_str_loop_eq b hbytes b.length 0 [] str rfl (by omega)
    (by unfold UINT32_MOD; omega) hs
  rw [List.nil_append, List.drop_zero, List.take_length, List.nil_append] at hz
  have hoff : (b.length * 3) % UINT32_MOD = 2 := by unfold UINT32_MOD; omega
  have hl := hexText_length b
  obtain ⟨s, hw, -⟩ := writeAt_isSome (hexText b ++ z :: str.drop (3 * b.length + 1)) [0x00] 2
    (by simp only [List.length_append, List.length_cons, List.length_nil]; omega)
  refine ⟨s, ?_, ?_⟩
  · unfold byte_array_to_str
    simp only [if_neg (by omega : ¬ b.length = 0), hz, hoff, hw]
  · intro j hj
    rw [writeAt_single_getElem _ _ _ _ hw j, List.getElem?_append_left (by omega)]

/-- The loop of `str_to_byte_array` on a string whose characters at the indices `3 * k`
are no separators and whose characters at the indices `3 * k + 2` are separators: every
byte stored takes three characters, so three times the count is at most `str_len + 2`. -/
theorem str_to_byte_array_loop_triples (s : List Nat) (str_len : Nat)
    (hM : str_len < UINT32_MOD)
    (hpair : ∀ k, 3 * k < str_len →
      ∃ c c1, s[3 * k]? = some c ∧ ¬ isSeparator c ∧ s[3 * k + 1]? = some c1)
    (hsep : ∀ k, 3 * k + 2 < str_len → ∃ c, s[3 * k + 2]? = some c ∧ isSeparator c) :
    ∀ fuel k len out count out1,
      (str_to_byte_array_loop s str_len fuel (3 * k) len out = some (count, out1) →
        3 * count ≤ 3 * len + (str_len + 2 - 3 * k)) ∧
      (str_to_byte_array_loop s str_len fuel (3 * k + 2) len out = some (count, out1) →
        3 * count ≤ 3 * len + (str_len + 2 - (3 * k + 3))) := by
  have hexit : ∀ fuel i len out count out1, ¬ i < str_len →
      str_to_byte_array_loop s str_len fuel i len out = some (count, out1) → count = len := by
    intro fuel i len out count out1 hi h
    rw [str_to_byte_array_loop_exit _ _ _ _ _ _ hi] at h
    simp only [Option.some.injEq, Prod.mk.injEq] at h
    exact h.1.symm
  intro fuel
  induction fuel with
  | zero =>
    intro k len out count out1
    constructor
    · intro h
      by_cases hi : 3 * k < str_len
      · rw [str_to_byte_array_loop_no_fuel _ _ _ _ _ hi] at h
        simp at h
      · rw [hexit _ _ _ _ _ _ hi h]; omega
    · intro h
      by_cases hi : 3 * k + 2 < str_len
      · rw [str_to_byte_array_loop_no_fuel _ _ _ _ _ hi] at h
        simp at h
      · rw [hexit _ _ _ _ _ _ hi h]; omega
  | succ fuel ih =>
    intro k len out count out1
    constructor
    · intro h
      by_cases hi : 3 * k < str_len
      · obtain ⟨c, c1, hc, hns, hc1⟩ := hpair k hi
        have hm1 : (3 * k + 1) % UINT32_MOD = 3 * k + 1 := by unfold UINT32_MOD at *; omega
        have hm2 : (3 * k + 2) % UINT32_MOD = 3 * k + 2 := by unfold UINT32_MOD at *; omega
        by_cases hlen : len < out.length
        · rw [str_to_byte_array_loop_pair _ _ _ _ _ _ c c1 hi hc hns (by rw [hm1]; exact hc1)
            hlen, hm2] at h
          have h1 := (ih k _ _ count out1).2 h
          have h2 := Nat.mod_le (len + 1) UINT32_MOD
          omega
        · rw [str_to_byte_array_loop_store_none _ _ _ _ _ _ c c1 hi hc hns
            (by rw [hm1]; exact hc1) hlen] at h
          simp at h
      · rw [hexit _ _ _ _ _ _ hi h]; omega
    · intro h
      by_cases hi : 3 * k + 2 < str_len
      · obtain ⟨c, hc, hs⟩ := hsep k hi
        have hm : (3 * k + 2 + 1) % UINT32_MOD = 3 * (k + 1) := by
          unfold UINT32_MOD at *; omega
        rw [str_to_byte_array_loop_skip _ _ _ _ _ _ c hi hc hs, hm] at h
        have h1 := (ih (k + 1) _ _ count out1).1 h
        omega
      · rw [hexit _ _ _ _ _ _ hi h]; omega

/-- The count `str_to_byte_array` returns on a string of such triples. -/
theorem str_to_byte_array_triples (s out : List Nat) (str_len : Nat)
    (hM : str_len < UINT32_MOD)
    (hpair : ∀ k, 3 * k < str_len →
      ∃ c c1, s[3 * k]? = some c ∧ ¬ isSeparator c ∧ s[3 * k + 1]? = some c1)
    (hsep : ∀ k, 3 * k + 2 < str_len → ∃ c, s[3 * k + 2]? = some c ∧ isSeparator c)
    (count : Nat) (out1 : Option (List Nat))
    (h : str_to_byte_array (some out) (some s) str_len = some (count, out1)) :
    3 * count ≤ str_len + 2 := by
  by_cases h0 : str_len = 0
  · subst h0
    unfold str_to_byte_array at h
    simp at h
    omega
  · cases hr : str_to_byte_array_loop s str_len str_len 0 0 out with
    | none =>
      rw [str_to_byte_array_of_loop_none _ _ _ h0 hr] at h
      simp at h
    | some r =>
      obtain ⟨cnt, buf⟩ := r
      rw [str_to_byte_array_of_loop _ _ _ h0 _ _ hr] at h
      simp only [Option.some.injEq, Prod.mk.injEq] at h
      obtain ⟨rfl, -⟩ := h
      have := (str_to_byte_array_loop_triples s str_len hM hpair hsep str_len 0 0 out cnt
        buf).1 hr
      omega


/-- The string `byte_array_to_str` produces for 1431655766 bytes cannot be decoded back to
as many bytes: for every 32-bit `str_len`, three times the count is at most
`str_len + 2`. -/
theorem byte_array_to_str_wrapped_count (b str : List Nat) (hbytes : ∀ x ∈ b, x < 256)
    (hlen : b.length = 1431655766) (hs : 3 * b.length + 1 ≤ str.length) :
    ∃ s, byte_array_to_str (some str) (some b) b.length = some (true, some s) ∧
      s[2]? = some 0x00 ∧
      ∀ str_len out count out1, str_len < UINT32_MOD →
        str_to_byte_array (some out) (some s) str_len = some (count, out1) →
        3 * count ≤ str_len + 2 := by
  obtain ⟨s, h1, h2⟩ := byte_array_to_str_wrapped b str hbytes hlen hs
  refine ⟨s, h1, by rw [h2 2 (by omega), if_pos rfl], ?_⟩
  intro str_len out count out1 hM h
  refine str_to_byte_array_triples s out str_len hM ?_ ?_ count out1 h
  · intro k hk
    have hkn : k < b.length := by unfold UINT32_MOD at hM; omega
    obtain ⟨g1, g2, -⟩ := hexText_getElem b k hkn
    have hv : b[k] < 256 := hbytes _ (List.getElem_mem hkn)
    obtain ⟨-, n1, n2⟩ := str_to_byte_array_nibble_num_to_char (b[k] / 16) (by omega)
    refine ⟨num_to_char (b[k] / 16), num_to_char (b[k] % 16), ?_, ?_, ?_⟩
    · rw [h2 _ (by omega), if_neg (by omega), g1]
    · unfold isSeparator
      exact fun h => h.elim n1 n2
    · rw [h2 _ (by omega), if_neg (by omega), g2]
  · intro k hk
    have hkn : k < b.length := by unfold UINT32_MOD at hM; omega
    obtain ⟨-, -, g3⟩ := hexText_getElem b k hkn
    by_cases hk0 : 3 * k + 2 = 2
    · exact ⟨0x00, by rw [h2 _ (by omega), if_pos hk0], Or.inr rfl⟩
    · exact ⟨0x20, by rw [h2 _ (by omega), if_neg hk0, g3], Or.inl rfl⟩

/-- C1, as stated, fails for a byte array of 1431655766 bytes, a length that is a 32-bit
value: `byte_array_to_str` returns `true`, but the offset of the terminator,
`3 * 1431655766`, wraps around to 2, so the character at index 2 of the string is NUL;
and `3 * 1431655766` is no `uint32_t` value: whatever 32-bit `str_len` is passed,
`str_to_byte_array` returns a count below 1431655766 on that string. -/
theorem encode_decode_round_trip_overflow :
    1431655766 < UINT32_MOD ∧
    ∃ s, byte_array_to_str (some (List.replicate 4294967299 0x55))
        (some (List.replicate 1431655766 0x00)) 1431655766 = some (true, some s) ∧
      s[2]? = some 0x00 ∧
      ∀ str_len out count out1, str_len < UINT32_MOD →
        str_to_byte_array (some out) (some s) str_len = some (count, out1) →
        count < 1431655766 := by
  have hlen : (List.replicate 1431655766 0x00).length = 1431655766 := List.length_replicate _ _
  obtain ⟨s, h1, h2, h3⟩ := byte_array_to_str_wrapped_count (List.replicate 1431655766 0x00)
    (List.replicate 4294967299 0x55)
    (fun x hx => by rw [List.eq_of_mem_replicate hx]; decide) hlen
    (by rw [hlen, List.length_replicate])
  rw [hlen] at h1
  refine ⟨by decide, s, h1, h2, ?_⟩
  intro str_len out count out1 hM h
  have := h3 str_len out count out1 hM h
  unfold UINT32_MOD at hM
  omega

end CharHandle
